import Mathlib

/-!
# Verification of the SM256e model codec (`util.py`, `import_bmd.py`)

A shallow embedding of the numeric codec, face/strip geometry engine,
texture classifier and block compressor, palette allocator, byte-buffer
assembler and display-list interpreter of the repository, together with
theorems settling the specification claims.

Python floats are modelled as exact rationals (`ℚ`), Python's arbitrary
precision integers as `ℤ`/`ℕ`, bytestrings as `List ℕ` of byte values, and
Python's `%` / `//` on integers as `Int.emod` / `Int.ediv` (both agree with
Python's semantics on negative operands).
-/

set_option maxRecDepth 8000
set_option linter.unusedVariables false

namespace SM256

/-- `int_round_mid_up(num)` from `util.py`: `int((num + 0.5) // 1)`.
Python's `// 1` is the floor; `int` of an integral value is the identity,
so this is `⌊num + 1/2⌋`. -/
def int_round_mid_up (num : ℚ) : ℤ := ⌊num + 1/2⌋

/-- `sign_int10(integer)` from `util.py`:
`integer - 0x400 if integer >= 0x200 else integer`. -/
def sign_int10 (integer : ℤ) : ℤ :=
  if integer ≥ 0x200 then integer - 0x400 else integer

/-- `from_uint(integer, num_bytes)` from `util.py`: the little-endian byte
list of `integer`.  (Python raises `OverflowError` when
`integer ≥ 256 ^ num_bytes`; the model truncates, and every theorem using
it stays below that bound.) -/
def from_uint : ℕ → ℕ → List ℕ
  | _, 0 => []
  | n, num_bytes + 1 => n % 256 :: from_uint (n / 256) num_bytes

/-- `to_uint(bytestr, offset, num_bytes)` from `util.py`, applied to the
already-extracted byte list: little-endian unsigned interpretation. -/
def to_uint (bytes : List ℕ) : ℕ :=
  bytes.foldr (fun b acc => b + 256 * acc) 0

/-- The packed integer built by `from_vecb(vec, bits_per_elem, bit_precision,
num_bytes)` from `util.py` before the final `from_uint`:
`sum(int_round_mid_up(v * (1 << bit_precision)) % (1 << bits_per_elem)
<< bits_per_elem * i for i, v in enumerate(vec))`. -/
def from_vecb_num : List ℚ → ℕ → ℕ → ℤ
  | [], _, _ => 0
  | v :: vs, bits_per_elem, bit_precision =>
      int_round_mid_up (v * 2 ^ bit_precision) % 2 ^ bits_per_elem +
        2 ^ bits_per_elem * from_vecb_num vs bits_per_elem bit_precision

/-- `to_vec30(bytestr, offset)` from `util.py` applied to the 4 extracted
bytes: reads a 4-byte little-endian unsigned integer `vec` and returns
`(sign_int10(vec & 0x3ff), sign_int10(vec >> 10 & 0x3ff),
sign_int10(vec >> 20 & 0x3ff))`. -/
def to_vec30 (bytes : List ℕ) : ℤ × ℤ × ℤ :=
  let vec : ℤ := to_uint bytes
  (sign_int10 (vec % 2 ^ 10),
   sign_int10 (vec / 2 ^ 10 % 2 ^ 10),
   sign_int10 (vec / 2 ^ 20 % 2 ^ 10))

theorem to_uint_from_uint (n k : ℕ) : to_uint (from_uint n k) = n % 256 ^ k := by
  induction k generalizing n with
  | zero => simp [from_uint, to_uint, Nat.mod_one]
  | succ k ih =>
      simp only [from_uint, to_uint, List.foldr] at *
      rw [ih, pow_succ', Nat.mod_mul]

theorem from_vecb_num_nonneg (vs : List ℚ) (bits prec : ℕ) :
    0 ≤ from_vecb_num vs bits prec := by
  induction vs with
  | nil => simp [from_vecb_num]
  | cons v vs ih =>
      have h1 : (0:ℤ) ≤ int_round_mid_up (v * 2 ^ prec) % 2 ^ bits :=
        Int.emod_nonneg _ (by positivity)
      have h2 : (0:ℤ) ≤ 2 ^ bits * from_vecb_num vs bits prec := by positivity
      simpa [from_vecb_num] using add_nonneg h1 h2

theorem from_vecb_num_lt (vs : List ℚ) (bits prec : ℕ) :
    from_vecb_num vs bits prec < 2 ^ (bits * vs.length) := by
  induction vs with
  | nil => simp [from_vecb_num]
  | cons v vs ih =>
      have h1 : int_round_mid_up (v * 2 ^ prec) % 2 ^ bits < 2 ^ bits :=
        Int.emod_lt_of_pos _ (by positivity)
      have : from_vecb_num (v :: vs) bits prec <
          2 ^ bits + 2 ^ bits * from_vecb_num vs bits prec := by
        simp only [from_vecb_num]; omega
      calc from_vecb_num (v :: vs) bits prec
          < 2 ^ bits + 2 ^ bits * from_vecb_num vs bits prec := this
        _ ≤ 2 ^ bits + 2 ^ bits * (2 ^ (bits * vs.length) - 1) := by
            have := ih
            have hle : from_vecb_num vs bits prec ≤ 2 ^ (bits * vs.length) - 1 := by omega
            have h2 : (0:ℤ) < 2 ^ bits := by positivity
            nlinarith
        _ ≤ 2 ^ (bits * (vs.length + 1)) := by
            rw [mul_add, mul_one, pow_add]
            have h2 : (1:ℤ) ≤ 2 ^ bits := by
              simpa using Int.lt_iff_add_one_le.mp (pow_pos (by norm_num : (0:ℤ) < 2) bits)
            nlinarith [pow_pos (show (0:ℤ) < 2 by norm_num) (bits * vs.length),
              pow_pos (show (0:ℤ) < 2 by norm_num) bits]

/-- C5: `int_round_mid_up` is round-half-up: it returns the greatest integer
not exceeding `x + 0.5` — i.e. `n ≤ int_round_mid_up x ↔ n ≤ x + 1/2` for
every integer `n` — and at the exact `.5` boundaries it matches the mid-up
reference values: `2.5 ↦ 3` and `−2.5 ↦ −2` (not banker's rounding). -/
theorem int_round_mid_up_spec :
    (∀ (x : ℚ) (n : ℤ), n ≤ int_round_mid_up x ↔ (n : ℚ) ≤ x + 1/2) ∧
    int_round_mid_up (5/2) = 3 ∧ int_round_mid_up (-(5/2)) = -2 := by
  refine ⟨fun x n => Int.le_floor, ?_, ?_⟩
  · show ⌊(5/2 : ℚ) + 1/2⌋ = 3
    norm_num
  · show ⌊(-(5/2) : ℚ) + 1/2⌋ = -2
    norm_num

theorem sign_int10_emod_cancel {n : ℤ} (h1 : -512 ≤ n) (h2 : n ≤ 511) :
    sign_int10 (n % 1024) = n := by
  simp only [sign_int10]
  omega

/-- C10: `sign_int10` restricted to `[0, 1023]` is a bijection onto
`[−512, 511]` (it maps into the range, and `n ↦ sign_int10 (n % 1024)` is a
two-sided inverse), and the three signed 10-bit components packed by
`from_vecb` via the mod-2¹⁰ reduction are decoded back to their original
rounded integer values by `to_vec30`. -/
theorem sign_int10_bijection_and_vecb_roundtrip :
    (∀ m : ℤ, 0 ≤ m → m ≤ 1023 →
      -512 ≤ sign_int10 m ∧ sign_int10 m ≤ 511 ∧ sign_int10 m % 1024 = m) ∧
    (∀ n : ℤ, -512 ≤ n → n ≤ 511 → sign_int10 (n % 1024) = n) ∧
    (∀ (x y z : ℚ) (prec : ℕ),
      (∀ v ∈ [x, y, z], -512 ≤ int_round_mid_up (v * 2 ^ prec) ∧
        int_round_mid_up (v * 2 ^ prec) ≤ 511) →
      to_vec30 (from_uint (from_vecb_num [x, y, z] 10 prec).toNat 4) =
        (int_round_mid_up (x * 2 ^ prec), int_round_mid_up (y * 2 ^ prec),
         int_round_mid_up (z * 2 ^ prec))) := by
  refine ⟨fun m h1 h2 => ?_, fun n h1 h2 => sign_int10_emod_cancel h1 h2,
    fun x y z prec hrange => ?_⟩
  · simp only [sign_int10]; omega
  · obtain ⟨hx1, hx2⟩ := hrange x (by simp)
    obtain ⟨hy1, hy2⟩ := hrange y (by simp)
    obtain ⟨hz1, hz2⟩ := hrange z (by simp)
    set a := int_round_mid_up (x * 2 ^ prec) with ha
    set b := int_round_mid_up (y * 2 ^ prec) with hb
    set c := int_round_mid_up (z * 2 ^ prec) with hc
    have hnum : from_vecb_num [x, y, z] 10 prec =
        a % 1024 + 1024 * (b % 1024 + 1024 * (c % 1024)) := by
      simp only [from_vecb_num, ← ha, ← hb, ← hc]
      norm_num
    have hbound : from_vecb_num [x, y, z] 10 prec < 2 ^ 30 := by
      have := from_vecb_num_lt [x, y, z] 10 prec
      simpa using this
    have hnn : 0 ≤ from_vecb_num [x, y, z] 10 prec :=
      from_vecb_num_nonneg [x, y, z] 10 prec
    rw [hnum] at hbound hnn
    have htu : (to_uint (from_uint (from_vecb_num [x, y, z] 10 prec).toNat 4) : ℤ)
        = a % 1024 + 1024 * (b % 1024 + 1024 * (c % 1024)) := by
      rw [to_uint_from_uint, hnum]
      have h4 : (a % 1024 + 1024 * (b % 1024 + 1024 * (c % 1024))).toNat % 256 ^ 4
          = (a % 1024 + 1024 * (b % 1024 + 1024 * (c % 1024))).toNat := by
        apply Nat.mod_eq_of_lt
        omega
      rw [h4]
      omega
    simp only [to_vec30, htu]
    have e1 : (a % 1024 + 1024 * (b % 1024 + 1024 * (c % 1024))) % 2 ^ 10 = a % 1024 := by
      omega
    have e2 : (a % 1024 + 1024 * (b % 1024 + 1024 * (c % 1024))) / 2 ^ 10 % 2 ^ 10
        = b % 1024 := by omega
    have e3 : (a % 1024 + 1024 * (b % 1024 + 1024 * (c % 1024))) / 2 ^ 20 % 2 ^ 10
        = c % 1024 := by omega
    rw [e1, e2, e3, sign_int10_emod_cancel hx1 hx2, sign_int10_emod_cancel hy1 hy2,
      sign_int10_emod_cancel hz1 hz2]

/-! ## Texture classification (`Texture.calc_type`, `util.py` lines 361-396) -/

/-- An RGBA5555 pixel as produced by `Texture.calc_rgba5555`: a 4-tuple of
5-bit channel values `(r, g, b, a)`. -/
abbrev Color5 : Type := ℕ × ℕ × ℕ × ℕ

/-- `c[0:3]`: the RGB part of a pixel. -/
def rgbOf (c : Color5) : ℕ × ℕ × ℕ := (c.1, c.2.1, c.2.2.1)

/-- `c[3]`: the alpha channel of a pixel. -/
def alphaOf (c : Color5) : ℕ := c.2.2.2

namespace Texture

def A3I5 : ℕ := 1
def COLOR_4 : ℕ := 2
def COLOR_16 : ℕ := 3
def COLOR_256 : ℕ := 4
def COMPRESSED : ℕ := 5
def A5I3 : ℕ := 6
def COLOR_DIRECT : ℕ := 7

/-- `len({c[0:3] for c in self.rgba5555 if c[3] != 0})` from
`Texture.calc_type`: the number of distinct non-transparent colors. -/
def num_solid_colors (img : List Color5) : ℕ :=
  ((img.filter (fun c => alphaOf c ≠ 0)).map rgbOf).dedup.length

/-- `Texture.calc_type` from `util.py`, as a function of the decoded pixel
list `rgba5555` and of the truthiness of the texture's `"Uncompressed"`
custom property.  Returns the hardware format tag. -/
def calc_type (img : List Color5) (uncompressed : Bool) : ℕ :=
  let num_colors := num_solid_colors img
  if img.any (fun c => alphaOf c ≠ 0 ∧ alphaOf c ≠ 31) then
    if num_colors > 8 then A3I5 else A5I3
  else
    let num_colors :=
      if img.any (fun c => alphaOf c = 0) then num_colors + 1 else num_colors
    if num_colors ≤ 4 then COLOR_4
    else if !uncompressed then COMPRESSED
    else if num_colors ≤ 16 then COLOR_16
    else if num_colors ≤ 256 then COLOR_256
    else COLOR_DIRECT

/-- The color count used by the fully-opaque/transparent branch of
`calc_type`: distinct non-transparent colors, plus one virtual transparent
color when any fully-transparent pixel exists. -/
def total_colors (img : List Color5) : ℕ :=
  num_solid_colors img + (if img.any (fun c => alphaOf c = 0) then 1 else 0)

theorem any_translucent_iff (img : List Color5)
    (hrange : ∀ c ∈ img, alphaOf c ≤ 31) :
    (img.any (fun c => alphaOf c ≠ 0 ∧ alphaOf c ≠ 31)) = true ↔
      ∃ c ∈ img, 0 < alphaOf c ∧ alphaOf c < 31 := by
  simp only [List.any_eq_true, decide_eq_true_eq]
  constructor
  · rintro ⟨c, hc, h1, h2⟩
    exact ⟨c, hc, by omega, lt_of_le_of_ne (hrange c hc) h2⟩
  · rintro ⟨c, hc, h1, h2⟩
    exact ⟨c, hc, by omega, by omega⟩

/-- C2: on a decoded 5-bit image, if any pixel's alpha is strictly between
0 and 31 then `calc_type` returns `A3I5` when the distinct
non-transparent-color count exceeds 8 and `A5I3` otherwise; and if no pixel
has partial alpha and the color count (with the virtual transparent color)
is at most 4, it returns the 4-color indexed format `COLOR_4`. -/
theorem calc_type_alpha_and_color4 (img : List Color5) (uncompressed : Bool)
    (hrange : ∀ c ∈ img, alphaOf c ≤ 31) :
    ((∃ c ∈ img, 0 < alphaOf c ∧ alphaOf c < 31) →
      calc_type img uncompressed =
        (if num_solid_colors img > 8 then A3I5 else A5I3)) ∧
    ((¬ ∃ c ∈ img, 0 < alphaOf c ∧ alphaOf c < 31) → total_colors img ≤ 4 →
      calc_type img uncompressed = COLOR_4) := by
  have heq := any_translucent_iff img hrange
  constructor
  · intro hex
    simp only [calc_type]
    rw [if_pos (heq.mpr hex)]
  · intro hnex hle
    simp only [calc_type]
    rw [if_neg (fun h => hnex (heq.mp h))]
    simp only [total_colors] at hle
    by_cases h : (img.any (fun c => alphaOf c = 0)) = true
    · rw [if_pos h] at hle ⊢
      rw [if_pos (by omega : num_solid_colors img + 1 ≤ 4)]
    · rw [if_neg h] at hle ⊢
      rw [if_pos (by omega : num_solid_colors img ≤ 4)]

/-- Witness for C2: a two-pixel image with one half-transparent pixel
classifies as `A5I3` (2 distinct solid colors, not more than 8), and a fully
opaque two-color image classifies as `COLOR_4`. -/
theorem calc_type_alpha_and_color4_witness :
    calc_type [((1, 2, 3, 15) : Color5), (4, 5, 6, 31)] false = A5I3 ∧
    calc_type [((1, 2, 3, 31) : Color5), (4, 5, 6, 0)] true = COLOR_4 := by
  constructor
  · have h := (calc_type_alpha_and_color4
      [((1, 2, 3, 15) : Color5), (4, 5, 6, 31)] false
      (by decide)).1 ⟨(1, 2, 3, 15), by decide, by decide⟩
    rw [h]; decide
  · exact (calc_type_alpha_and_color4 [((1, 2, 3, 31) : Color5), (4, 5, 6, 0)] true
      (by decide)).2 (by decide) (by decide)

/-- The concrete 257-color fully-opaque image used to refute C7:
257 pairwise-distinct opaque colors. -/
def img257 : List Color5 := (List.range 257).map (fun i => (i % 32, i / 32, 0, 31))

theorem img257_total_colors : total_colors img257 = 257 := by
  have hfilter : img257.filter (fun c => alphaOf c ≠ 0) = img257 := by
    rw [List.filter_eq_self]
    intro c hc
    simp only [img257, List.mem_map] at hc
    obtain ⟨i, _, rfl⟩ := hc
    simp [alphaOf]
  have hnotr : img257.any (fun c => alphaOf c = 0) = false := by
    simp only [List.any_eq_false, img257, List.mem_map]
    rintro c ⟨i, _, rfl⟩
    simp [alphaOf]
  have hinj : Function.Injective (fun i : ℕ => rgbOf ((i % 32, i / 32, 0, 31) : Color5)) := by
    intro a b h
    simp only [rgbOf, Prod.mk.injEq] at h
    omega
  have hnodup : ((img257.filter (fun c => alphaOf c ≠ 0)).map rgbOf).Nodup := by
    rw [hfilter]
    simp only [img257, List.map_map]
    exact (List.nodup_range 257).map hinj
  simp only [total_colors, num_solid_colors, hnotr, if_false, hnodup.dedup]
  rw [hfilter]
  simp [img257]

/-- Counterexample to C7: `img257` is fully opaque with 257 > 256 distinct
colors, yet with the "Uncompressed" flag unset `calc_type` selects the
block-`COMPRESSED` format, not an uncompressed indexed/direct format as the
claim ("when the flag is set **or** the color count exceeds 256") requires. -/
theorem calc_type_over256_counterexample :
    total_colors img257 = 257 ∧
    calc_type img257 false = COMPRESSED ∧
    COMPRESSED ∉ [COLOR_16, COLOR_256, COLOR_DIRECT] := by
  refine ⟨img257_total_colors, ?_, by decide⟩
  have htransl : img257.any (fun c => alphaOf c ≠ 0 ∧ alphaOf c ≠ 31) = false := by
    simp only [List.any_eq_false, img257, List.mem_map]
    rintro c ⟨i, _, rfl⟩
    simp [alphaOf]
  have hnotr : img257.any (fun c => alphaOf c = 0) = false := by
    simp only [List.any_eq_false, img257, List.mem_map]
    rintro c ⟨i, _, rfl⟩
    simp [alphaOf]
  have hn : num_solid_colors img257 = 257 := by
    have := img257_total_colors
    simp only [total_colors, hnotr, if_false, add_zero] at this
    exact this
  rw [calc_type]
  simp only [htransl, hnotr, hn]
  norm_num [COMPRESSED]

/-- C7 (amended): for a fully opaque/transparent image with more than 4
colors, `calc_type` selects the block-compressed format whenever the
"Uncompressed" flag is unset (regardless of color count), and an
uncompressed format when the flag is set: 16-color indexed for ≤16 colors,
256-color indexed for ≤256, 16-bit direct color for more. -/
theorem calc_type_opaque_formats (img : List Color5) (uncompressed : Bool)
    (hnex : ¬ ∃ c ∈ img, 0 < alphaOf c ∧ alphaOf c < 31)
    (hrange : ∀ c ∈ img, alphaOf c ≤ 31)
    (hgt : total_colors img > 4) :
    calc_type img uncompressed =
      if !uncompressed then COMPRESSED
      else if total_colors img ≤ 16 then COLOR_16
      else if total_colors img ≤ 256 then COLOR_256
      else COLOR_DIRECT := by
  have heq : ¬ (img.any (fun c => alphaOf c ≠ 0 ∧ alphaOf c ≠ 31)) = true :=
    fun h => hnex ((any_translucent_iff img hrange).mp h)
  simp only [calc_type]
  rw [if_neg heq]
  simp only [total_colors] at hgt
  by_cases h : (img.any (fun c => alphaOf c = 0)) = true
  · rw [if_pos h] at hgt ⊢
    rw [if_neg (by omega : ¬ num_solid_colors img + 1 ≤ 4)]
    cases uncompressed <;> simp [total_colors, h]
  · rw [if_neg h] at hgt ⊢
    rw [if_neg (by omega : ¬ num_solid_colors img ≤ 4)]
    cases uncompressed <;> simp [total_colors, h]

/-- Witness for the amended C7: a 5-color opaque image with the flag set
classifies as `COLOR_16`, and with the flag unset as `COMPRESSED`. -/
theorem calc_type_opaque_formats_witness :
    calc_type [((1, 0, 0, 31) : Color5), (2, 0, 0, 31), (3, 0, 0, 31),
        (4, 0, 0, 31), (5, 0, 0, 31)] true = COLOR_16 := by
  have h := calc_type_opaque_formats
    [((1, 0, 0, 31) : Color5), (2, 0, 0, 31), (3, 0, 0, 31), (4, 0, 0, 31), (5, 0, 0, 31)]
    true (by decide) (by decide) (by decide)
  rw [h]; decide

end Texture

/-! ## Face mergeability (`Face.can_connect_to`, `util.py` lines 96-115)

A `Face` is its ordered vertex list; `Vertex` equality/hashing is by value,
so vertices are modelled as elements of an arbitrary type with decidable
equality.  Python materialises `list(set(self.vertices) & set(other.vertices))`
in hash order; the model takes the distinct shared vertices in `self`'s
order.  All theorems below restrict to faces sharing exactly two vertices,
where the outcome is independent of that choice: swapping the two shared
vertices replaces each offset `d` by `(len - d) % len`, which preserves the
`d = 2` tests (for `len = 4`) and the disequality of the two offsets, so any
enumeration order of the two-element set yields the same result. -/

/-- The distinct vertices shared by the two faces
(`set(self.vertices) & set(other.vertices)`), in `xs`'s order. -/
def sharedVertices {V : Type} [DecidableEq V] (xs ys : List V) : List V :=
  (xs.filter (· ∈ ys)).dedup

/-- `(vs.index(shared[0]) - vs.index(shared[1])) % len(vs)` from
`Face.can_connect_to`: the relative index-offset of the pair `(a, b)` inside
the vertex list `vs` (Python's `%` on a negative left operand equals this
nonnegative form when both indices are in range). -/
def relOffset {V : Type} [DecidableEq V] (vs : List V) (a b : V) : ℕ :=
  (vs.indexOf a + vs.length - vs.indexOf b) % vs.length

/-- `Face.can_connect_to` from `util.py`.  The Python method first returns
`False` when `self is other`; two faces with equal vertex lists always
compute equal offsets and return `False` anyway, so the model needs no
object-identity test. -/
def can_connect_to {V : Type} [DecidableEq V] (xs ys : List V) : Bool :=
  if xs.length ≠ ys.length then false
  else
    match sharedVertices xs ys with
    | s0 :: s1 :: _ =>
        decide ((xs.length = 3 ∨ (relOffset xs s0 s1 ≠ 2 ∧ relOffset ys s0 s1 ≠ 2)) ∧
          relOffset xs s0 s1 ≠ relOffset ys s0 s1)
    | _ => false

/-- `a` is immediately followed by `b` (cyclically) somewhere in `vs`:
the building block of the claim's "edge-adjacent in the face's own vertex
order". -/
def followedBy {V : Type} [DecidableEq V] (vs : List V) (a b : V) : Bool :=
  (List.range vs.length).any fun i =>
    vs.get? i == some a && vs.get? ((i + 1) % vs.length) == some b

/-- The claim's "the shared pair is edge-adjacent in *both* faces' own
vertex order in the same rotational sense". -/
def adjacentSameSense {V : Type} [DecidableEq V] (xs ys : List V) (a b : V) : Bool :=
  (followedBy xs a b && followedBy ys a b) || (followedBy xs b a && followedBy ys b a)

/-- Counterexample to C4 as stated: the quads `[0,1,2,3]` and `[0,4,1,5]`
are distinct, of equal arity 4, share exactly the two vertices `0` and `1`,
the shared pair is *not* edge-adjacent in both faces in the same rotational
sense (in the second face it is not edge-adjacent at all), and the relative
offsets differ (3 vs 2) — so the claim requires `can_connect_to = true` —
yet the code returns `false`, because the pair sits diagonally (offset 2)
in the second face and the code rejects any diagonal pair via
`2 not in diffs`. -/
theorem can_connect_to_counterexample :
    can_connect_to [0, 1, 2, 3] ([0, 4, 1, 5] : List ℕ) = false ∧
    [0, 1, 2, 3] ≠ ([0, 4, 1, 5] : List ℕ) ∧
    ([0, 1, 2, 3] : List ℕ).length = ([0, 4, 1, 5] : List ℕ).length ∧
    sharedVertices [0, 1, 2, 3] ([0, 4, 1, 5] : List ℕ) = [0, 1] ∧
    adjacentSameSense [0, 1, 2, 3] ([0, 4, 1, 5] : List ℕ) 0 1 = false ∧
    relOffset ([0, 1, 2, 3] : List ℕ) 0 1 = 3 ∧
    relOffset ([0, 4, 1, 5] : List ℕ) 0 1 = 2 := by
  decide

/-- C4 (amended): for two faces sharing exactly the two vertices `s0, s1`,
`can_connect_to` returns true iff the arities are equal, (the arity is 3, or
the shared pair is not *diagonal* — relative offset 2 — in either face's own
vertex order), and the relative index-offsets of the shared pair within the
two faces differ. -/
theorem can_connect_to_spec {V : Type} [DecidableEq V] (xs ys : List V)
    (s0 s1 : V) (hsh : sharedVertices xs ys = [s0, s1]) :
    can_connect_to xs ys = true ↔
      xs.length = ys.length ∧
      (xs.length = 3 ∨ (relOffset xs s0 s1 ≠ 2 ∧ relOffset ys s0 s1 ≠ 2)) ∧
      relOffset xs s0 s1 ≠ relOffset ys s0 s1 := by
  rw [can_connect_to, hsh]
  by_cases h : xs.length = ys.length
  · rw [if_neg (by omega)]
    simp [h]
  · rw [if_pos (by omega)]
    simp [h]

/-- Witness for the amended C4: the triangles `[0,1,2]` and `[2,1,3]` share
exactly `1` and `2`, with offsets 2 and 1, and do connect. -/
theorem can_connect_to_spec_witness :
    can_connect_to [0, 1, 2] ([2, 1, 3] : List ℕ) = true := by
  rw [can_connect_to_spec [0, 1, 2] ([2, 1, 3] : List ℕ) 1 2 (by decide)]
  refine ⟨by decide, .inl (by decide), by decide⟩

/-- Python's `list.index(x)`: the index of the first occurrence (`x` absent
would raise `ValueError`; the model then returns the length, which the
claims never reach). -/
def pyIndex {α : Type} [DecidableEq α] : List α → α → ℕ
  | [], _ => 0
  | y :: ys, x => if y = x then 0 else pyIndex ys x + 1

/-! ## Geometry strip builder (`Geometry.strip`, `util.py` lines 117-223)

A `Geometry` is its face list (each face an ordered vertex list); the
derived `face_graph` maps each face index to the set of connectable face
indices.  Python iterates that set (and `unstripped`) in hash order; the
model enumerates both in ascending index order, the fixed seed order the
spec itself prescribes ("seed selection order must be fixed (e.g., ascending
face index)").  The partition property proved below holds for any such
choice. -/

/-- `face_graph` from `Geometry.__init__`:
`{j for j, other in enumerate(self.faces) if face.can_connect_to(other)}`,
enumerated in ascending order. -/
def face_graph {V : Type} [DecidableEq V] (faces : List (List V)) (i : ℕ) :
    List ℕ :=
  (List.range faces.length).filter fun j =>
    can_connect_to (faces.getD i []) (faces.getD j [])

/-- `adjacent_by_edge(face_index, edge)` from `Geometry.strip`: the first
connectable face containing both edge vertices, with the edge's index in it
rotated onto the edge start (Python returns `(None, 0)` when none exists;
the model returns `none`). -/
def adjacent_by_edge {V : Type} [DecidableEq V] (faces : List (List V))
    (face_index : ℕ) (e0 e1 : V) : Option (ℕ × ℕ) :=
  (((face_graph faces face_index).filter fun j =>
      e0 ∈ faces.getD j [] ∧ e1 ∈ faces.getD j []).head?).map fun j =>
    let other := faces.getD j []
    let i0 := pyIndex other e0
    let i1 := pyIndex other e1
    (j, if (i0 + 1) % other.length = i1 then i0 else i1)

theorem adjacent_by_edge_lt {V : Type} [DecidableEq V] {faces : List (List V)}
    {face_index : ℕ} {e0 e1 : V} {j vi : ℕ}
    (h : adjacent_by_edge faces face_index e0 e1 = some (j, vi)) :
    j < faces.length := by
  rw [adjacent_by_edge] at h
  rcases Option.map_eq_some'.mp h with ⟨j0, hj0, heq⟩
  have hmem : j0 ∈ (face_graph faces face_index).filter fun j =>
      decide (e0 ∈ faces.getD j [] ∧ e1 ∈ faces.getD j []) := by
    rcases ((face_graph faces face_index).filter _).eq_nil_or_concat with hnil | _
    · rw [hnil] at hj0; simp at hj0
    · exact List.mem_of_mem_head? hj0
  have : j0 ∈ face_graph faces face_index := (List.mem_filter.mp hmem).1
  have hr : j0 ∈ List.range faces.length := (List.mem_filter.mp this).1
  have hjj0 : j0 = j := by
    have h1 := congrArg Prod.fst heq
    simpa using h1
  rw [← hjj0]
  exact List.mem_range.mp hr

/-- The forward-extension loop of `extend_strip`: follow the trailing edge
through the adjacency graph, appending each next face's remaining vertices
in winding-consistent, reversed order. -/
def extend_forward {V : Type} [DecidableEq V] [Inhabited V]
    (faces : List (List V)) (arity : ℕ) (faces_left : Finset ℕ)
    (cur : ℕ) (vertices : List V) (result : Finset ℕ) : List V × Finset ℕ :=
  match vertices.reverse with
  | v1 :: v0 :: _ =>
    match hadj : adjacent_by_edge faces cur v0 v1 with
    | none => (vertices, result)
    | some (j, v_index) =>
      if hj : j ∈ faces_left ∧ j ∉ result then
        extend_forward faces arity faces_left j
          (vertices ++ ((List.range' 2 (arity - 2)).map fun i =>
            (faces.getD j []).getD ((v_index + i) % arity) default).reverse)
          (insert j result)
      else (vertices, result)
  | _ => (vertices, result)
termination_by (Finset.range faces.length \ result).card
decreasing_by
  have hjlt : j < faces.length := adjacent_by_edge_lt hadj
  have hjmem : j ∈ Finset.range faces.length \ result :=
    Finset.mem_sdiff.mpr ⟨Finset.mem_range.mpr hjlt, hj.2⟩
  have heq : Finset.range faces.length \ insert j result =
      (Finset.range faces.length \ result).erase j := by
    ext x
    simp only [Finset.mem_sdiff, Finset.mem_erase, Finset.mem_insert]
    tauto
  rw [heq]
  exact Finset.card_erase_lt_of_mem hjmem

/-- The backward-extension loop of `extend_strip`: follow the leading edge,
prepending each next face's remaining vertices, counting extensions and
remembering the last extended face index. -/
def extend_backward {V : Type} [DecidableEq V] [Inhabited V]
    (faces : List (List V)) (arity : ℕ) (faces_left : Finset ℕ)
    (cur : ℕ) (vertices : List V) (result : Finset ℕ) (num_exts : ℕ)
    (last : Option ℕ) : List V × Finset ℕ × ℕ × Option ℕ :=
  match vertices with
  | v0 :: v1 :: _ =>
    match hadj : adjacent_by_edge faces cur v0 v1 with
    | none => (vertices, result, num_exts, last)
    | some (j, v_index) =>
      if hj : j ∈ faces_left ∧ j ∉ result then
        extend_backward faces arity faces_left j
          (((List.range' 2 (arity - 2)).map fun i =>
            (faces.getD j []).getD ((v_index + i) % arity) default) ++ vertices)
          (insert j result) (num_exts + 1) (some j)
      else (vertices, result, num_exts, last)
  | _ => (vertices, result, num_exts, last)
termination_by (Finset.range faces.length \ result).card
decreasing_by
  have hjlt : j < faces.length := adjacent_by_edge_lt hadj
  have hjmem : j ∈ Finset.range faces.length \ result :=
    Finset.mem_sdiff.mpr ⟨Finset.mem_range.mpr hjlt, hj.2⟩
  have heq : Finset.range faces.length \ insert j result =
      (Finset.range faces.length \ result).erase j := by
    ext x
    simp only [Finset.mem_sdiff, Finset.mem_erase, Finset.mem_insert]
    tauto
  rw [heq]
  exact Finset.card_erase_lt_of_mem hjmem

theorem extend_backward_eq_stop {V : Type} [DecidableEq V] [Inhabited V]
    (faces : List (List V)) (arity : ℕ) (faces_left : Finset ℕ)
    (cur : ℕ) (vertices : List V) (result : Finset ℕ) (num_exts : ℕ)
    (last : Option ℕ)
    (h : ∀ (j vi : ℕ), (∃ v0 v1 tl, vertices = v0 :: v1 :: tl ∧
      adjacent_by_edge faces cur v0 v1 = some (j, vi)) →
        ¬(j ∈ faces_left ∧ j ∉ result)) :
    extend_backward faces arity faces_left cur vertices result num_exts last =
      (vertices, result, num_exts, last) := by
  rw [extend_backward.eq_def]
  repeat' split
  · rfl
  · rename_i v0 v1 tl j vi hadj hj
    exact absurd hj (h j vi ⟨v0, v1, tl, rfl, hadj⟩)
  · rfl
  · rfl

theorem extend_backward_eq_step {V : Type} [DecidableEq V] [Inhabited V]
    (faces : List (List V)) (arity : ℕ) (faces_left : Finset ℕ)
    (cur : ℕ) (v0 v1 : V) (tl : List V) (result : Finset ℕ) (num_exts : ℕ)
    (last : Option ℕ) (j vi : ℕ)
    (hadj : adjacent_by_edge faces cur v0 v1 = some (j, vi))
    (hj : j ∈ faces_left ∧ j ∉ result) :
    extend_backward faces arity faces_left cur (v0 :: v1 :: tl) result
        num_exts last =
      extend_backward faces arity faces_left j
        (((List.range' 2 (arity - 2)).map fun i =>
          (faces.getD j []).getD ((vi + i) % arity) default) ++ (v0 :: v1 :: tl))
        (insert j result) (num_exts + 1) (some j) := by
  rw [extend_backward.eq_def]
  repeat' split
  all_goals simp_all

theorem extend_backward_spec {V : Type} [DecidableEq V] [Inhabited V]
    (faces : List (List V)) (arity : ℕ) (faces_left : Finset ℕ)
    (cur : ℕ) (vertices : List V) (result : Finset ℕ) (num_exts : ℕ)
    (last : Option ℕ) :
    result ⊆ (extend_backward faces arity faces_left cur vertices result
        num_exts last).2.1 ∧
    (extend_backward faces arity faces_left cur vertices result
        num_exts last).2.1 ⊆ result ∪ faces_left ∧
    ((extend_backward faces arity faces_left cur vertices result
        num_exts last).2.2.2 = last ∨
      ∃ l, (extend_backward faces arity faces_left cur vertices result
        num_exts last).2.2.2 = some l ∧ l ∉ result) := by
  induction cur, vertices, result, num_exts, last
    using extend_backward.induct faces arity faces_left with
  | case1 cur result num_exts last v0 v1 tl hadj =>
      rw [extend_backward_eq_stop faces arity faces_left cur (v0 :: v1 :: tl)
        result num_exts last
        (fun j vi hex => by
          obtain ⟨w0, w1, wtl, hw, hadj2⟩ := hex
          obtain ⟨rfl, rfl, rfl⟩ : w0 = v0 ∧ w1 = v1 ∧ wtl = tl := by
            simpa using hw.symm
          rw [hadj] at hadj2
          exact absurd hadj2 (by simp))]
      exact ⟨le_refl _, Finset.subset_union_left, Or.inl rfl⟩
  | case2 cur result num_exts last v0 v1 tl j vi hadj hj ih =>
      rw [extend_backward_eq_step faces arity faces_left cur v0 v1 tl result
        num_exts last j vi hadj hj]
      obtain ⟨ih1, ih2, ih3⟩ := ih
      refine ⟨le_trans (Finset.subset_insert _ _) ih1, le_trans ih2 ?_, ?_⟩
      · apply Finset.union_subset
        · intro x hx
          rcases Finset.mem_insert.mp hx with rfl | hx'
          · exact Finset.mem_union_right _ hj.1
          · exact Finset.mem_union_left _ hx'
        · exact Finset.subset_union_right
      · rcases ih3 with hl | ⟨l, hl, hlr⟩
        · exact Or.inr ⟨j, hl, hj.2⟩
        · exact Or.inr ⟨l, hl, fun hc => hlr (Finset.mem_insert_of_mem hc)⟩
  | case3 cur result num_exts last v0 v1 tl j vi hadj hj =>
      rw [extend_backward_eq_stop faces arity faces_left cur (v0 :: v1 :: tl)
        result num_exts last
        (fun j' vi' hex => by
          obtain ⟨w0, w1, wtl, hw, hadj2⟩ := hex
          obtain ⟨rfl, rfl, rfl⟩ : w0 = v0 ∧ w1 = v1 ∧ wtl = tl := by
            simpa using hw.symm
          rw [hadj] at hadj2
          obtain ⟨rfl, rfl⟩ : j' = j ∧ vi' = vi := by simpa using hadj2.symm
          exact hj)]
      exact ⟨le_refl _, Finset.subset_union_left, Or.inl rfl⟩
  | case4 cur vertices result num_exts last h =>
      rw [extend_backward_eq_stop faces arity faces_left cur vertices
        result num_exts last
        (fun j vi hex => by
          obtain ⟨w0, w1, wtl, hw, _⟩ := hex
          exact absurd hw (by intro hc; exact h w0 w1 wtl hc))]
      exact ⟨le_refl _, Finset.subset_union_left, Or.inl rfl⟩

/-- `extend_strip(face_index, order, faces_left)` from `Geometry.strip`:
extend forwards, then backwards, then apply the triangle parity correction
(an odd number of backward extensions drops the last backward-added
triangle, which stays unconsumed). -/
def extend_strip {V : Type} [DecidableEq V] [Inhabited V]
    (faces : List (List V)) (face_index : ℕ) (order : List ℕ)
    (faces_left : Finset ℕ) : List V × Finset ℕ :=
  let face := faces.getD face_index []
  let arity := face.length
  let vertices := order.map fun e => face.getD e default
  let fwd := extend_forward faces arity faces_left face_index vertices {face_index}
  let bwd := extend_backward faces arity faces_left face_index fwd.1 fwd.2 0 none
  if bwd.2.2.1 % 2 ≠ 0 ∧ arity = 3 then
    match bwd.2.2.2 with
    | some l => (bwd.1.drop 1, bwd.2.1.erase l)
    | none => (bwd.1.drop 1, bwd.2.1)
  else (bwd.1, bwd.2.1)

theorem extend_forward_eq_stop {V : Type} [DecidableEq V] [Inhabited V]
    (faces : List (List V)) (arity : ℕ) (faces_left : Finset ℕ)
    (cur : ℕ) (vertices : List V) (result : Finset ℕ)
    (h : ∀ (j vi : ℕ), (∃ v1 v0 tl, vertices.reverse = v1 :: v0 :: tl ∧
      adjacent_by_edge faces cur v0 v1 = some (j, vi)) →
        ¬(j ∈ faces_left ∧ j ∉ result)) :
    extend_forward faces arity faces_left cur vertices result =
      (vertices, result) := by
  rw [extend_forward.eq_def]
  repeat' split
  · rfl
  · rename_i v1 v0 tl heq j vi hadj hj
    exact absurd hj (h j vi ⟨v1, v0, tl, heq, hadj⟩)
  · rfl
  · rfl

theorem extend_forward_eq_step {V : Type} [DecidableEq V] [Inhabited V]
    (faces : List (List V)) (arity : ℕ) (faces_left : Finset ℕ)
    (cur : ℕ) (vertices : List V) (result : Finset ℕ)
    (v0 v1 : V) (tl : List V) (j vi : ℕ)
    (heq : vertices.reverse = v1 :: v0 :: tl)
    (hadj : adjacent_by_edge faces cur v0 v1 = some (j, vi))
    (hj : j ∈ faces_left ∧ j ∉ result) :
    extend_forward faces arity faces_left cur vertices result =
      extend_forward faces arity faces_left j
        (vertices ++ ((List.range' 2 (arity - 2)).map fun i =>
          (faces.getD j []).getD ((vi + i) % arity) default).reverse)
        (insert j result) := by
  rw [extend_forward.eq_def]
  repeat' split
  all_goals simp_all

theorem extend_forward_spec {V : Type} [DecidableEq V] [Inhabited V]
    (faces : List (List V)) (arity : ℕ) (faces_left : Finset ℕ)
    (cur : ℕ) (vertices : List V) (result : Finset ℕ) :
    result ⊆ (extend_forward faces arity faces_left cur vertices result).2 ∧
    (extend_forward faces arity faces_left cur vertices result).2 ⊆
      result ∪ faces_left := by
  induction cur, vertices, result using extend_forward.induct faces arity faces_left with
  | case1 cur vertices result v1 v0 tl heq hadj =>
      rw [extend_forward_eq_stop faces arity faces_left cur vertices result
        (fun j vi hex => by
          obtain ⟨w1, w0, wtl, hw, hadj2⟩ := hex
          rw [heq] at hw
          obtain ⟨rfl, rfl, rfl⟩ : w1 = v1 ∧ w0 = v0 ∧ wtl = tl := by
            simpa using hw.symm
          rw [hadj] at hadj2
          exact absurd hadj2 (by simp))]
      exact ⟨le_refl _, Finset.subset_union_left⟩
  | case2 cur vertices result v1 v0 tl heq j vi hadj hj ih =>
      rw [extend_forward_eq_step faces arity faces_left cur vertices result
        v0 v1 tl j vi heq hadj hj]
      refine ⟨le_trans ?_ ih.1, le_trans ih.2 ?_⟩
      · exact Finset.subset_insert _ _
      · apply Finset.union_subset
        · intro x hx
          rcases Finset.mem_insert.mp hx with rfl | hx'
          · exact Finset.mem_union_right _ hj.1
          · exact Finset.mem_union_left _ hx'
        · exact Finset.subset_union_right
  | case3 cur vertices result v1 v0 tl heq j vi hadj hj =>
      rw [extend_forward_eq_stop faces arity faces_left cur vertices result
        (fun j' vi' hex => by
          obtain ⟨w1, w0, wtl, hw, hadj2⟩ := hex
          rw [heq] at hw
          obtain ⟨rfl, rfl, rfl⟩ : w1 = v1 ∧ w0 = v0 ∧ wtl = tl := by
            simpa using hw.symm
          rw [hadj] at hadj2
          obtain ⟨rfl, rfl⟩ : j' = j ∧ vi' = vi := by simpa using hadj2.symm
          exact hj)]
      exact ⟨le_refl _, Finset.subset_union_left⟩
  | case4 cur vertices result h =>
      rw [extend_forward_eq_stop faces arity faces_left cur vertices result
        (fun j vi hex => by
          obtain ⟨w1, w0, wtl, hw, _⟩ := hex
          exact absurd hw (by intro hc; exact h w1 w0 wtl hc))]
      exact ⟨le_refl _, Finset.subset_union_left⟩

theorem extend_strip_spec {V : Type} [DecidableEq V] [Inhabited V]
    (faces : List (List V)) (face_index : ℕ) (order : List ℕ)
    (faces_left : Finset ℕ) :
    face_index ∈ (extend_strip faces face_index order faces_left).2 ∧
    (extend_strip faces face_index order faces_left).2 ⊆
      insert face_index faces_left := by
  obtain ⟨hf1, hf2⟩ := extend_forward_spec faces
    (faces.getD face_index []).length faces_left face_index
    (order.map fun e => (faces.getD face_index []).getD e default) {face_index}
  obtain ⟨hb1, hb2, hb3⟩ := extend_backward_spec faces
    (faces.getD face_index []).length faces_left face_index
    (extend_forward faces (faces.getD face_index []).length faces_left
      face_index (order.map fun e => (faces.getD face_index []).getD e default)
      {face_index}).1
    (extend_forward faces (faces.getD face_index []).length faces_left
      face_index (order.map fun e => (faces.getD face_index []).getD e default)
      {face_index}).2 0 none
  have hmem : face_index ∈ (extend_backward faces
      (faces.getD face_index []).length faces_left face_index
      (extend_forward faces (faces.getD face_index []).length faces_left
        face_index (order.map fun e => (faces.getD face_index []).getD e default)
        {face_index}).1
      (extend_forward faces (faces.getD face_index []).length faces_left
        face_index (order.map fun e => (faces.getD face_index []).getD e default)
        {face_index}).2 0 none).2.1 :=
    hb1 (hf1 (Finset.mem_singleton_self face_index))
  have hsub : (extend_backward faces
      (faces.getD face_index []).length faces_left face_index
      (extend_forward faces (faces.getD face_index []).length faces_left
        face_index (order.map fun e => (faces.getD face_index []).getD e default)
        {face_index}).1
      (extend_forward faces (faces.getD face_index []).length faces_left
        face_index (order.map fun e => (faces.getD face_index []).getD e default)
        {face_index}).2 0 none).2.1 ⊆ insert face_index faces_left := by
    refine le_trans hb2 (Finset.union_subset (le_trans hf2 ?_) ?_)
    · exact Finset.union_subset (by simp) (Finset.subset_insert _ _)
    · exact Finset.subset_insert _ _
  rw [extend_strip]
  split
  · split
    · rename_i l hl
      constructor
      · apply Finset.mem_erase.mpr
        refine ⟨?_, hmem⟩
        rcases hb3 with hn | ⟨l', hl', hlr⟩
        · rw [hl] at hn
          exact absurd hn (by simp)
        · rw [hl] at hl'
          obtain rfl : l' = l := by simpa using hl'.symm
          exact fun hc => hlr (hc ▸ hf1 (Finset.mem_singleton_self face_index))
      · exact le_trans (Finset.erase_subset _ _) hsub
    · exact ⟨hmem, hsub⟩
  · exact ⟨hmem, hsub⟩

/-- `sorted(candidates, key=len)[-1]`: keep the later candidate on equal
lengths, matching the stable ascending sort's last element. -/
def pickStep {V : Type} (acc : Option (List V × Finset ℕ))
    (c : List V × Finset ℕ) : Option (List V × Finset ℕ) :=
  match acc with
  | none => some c
  | some b => if b.1.length ≤ c.1.length then some c else some b

def pickLongest {V : Type} (cands : List (List V × Finset ℕ)) :
    Option (List V × Finset ℕ) :=
  cands.foldl pickStep none

theorem pickLongest_go_mem {V : Type} :
    ∀ (l : List (List V × Finset ℕ)) (acc : Option (List V × Finset ℕ)) sf,
      l.foldl pickStep acc = some sf → sf ∈ l ∨ acc = some sf := by
  intro l
  induction l with
  | nil => exact fun acc sf h => Or.inr h
  | cons c rest ih =>
      intro acc sf h
      rw [List.foldl_cons] at h
      rcases ih (pickStep acc c) sf h with hm | he
      · exact Or.inl (List.mem_cons_of_mem _ hm)
      · rcases acc with _ | b
        · rw [pickStep] at he
          exact Or.inl (by rw [Option.some.injEq] at he; simp [he])
        · rw [pickStep] at he
          revert he
          split
          · intro he
            exact Or.inl (by rw [Option.some.injEq] at he; simp [he])
          · intro he
            exact Or.inr he

theorem pickLongest_mem {V : Type} {cands : List (List V × Finset ℕ)}
    {sf : List V × Finset ℕ} (h : pickLongest cands = some sf) : sf ∈ cands := by
  rcases pickLongest_go_mem cands none sf h with hm | he
  · exact hm
  · exact absurd he (by simp)

theorem pickLongest_go_isSome {V : Type} :
    ∀ (l : List (List V × Finset ℕ)) (b : List V × Finset ℕ),
      (l.foldl pickStep (some b)).isSome := by
  intro l
  induction l with
  | nil => intro b; rfl
  | cons c rest ih =>
      intro b
      rw [List.foldl_cons, pickStep]
      split
      · exact ih c
      · exact ih b

theorem pickLongest_isSome {V : Type} (cands : List (List V × Finset ℕ))
    (h : cands ≠ []) : (pickLongest cands).isSome := by
  rcases cands with _ | ⟨c, rest⟩
  · exact absurd rfl h
  · rw [pickLongest, List.foldl_cons, pickStep]
    exact pickLongest_go_isSome rest c

/-- The `while unstripped` loop of `Geometry.strip`: seed the lowest
remaining face index, try every candidate starting order, commit the
longest strip (later orders win ties, as `sorted(...)[-1]` does), and
dispatch it into one of the four outputs.  The fifth component records, per
iteration, the set of face indices the committed strip consumed. -/
def stripAux {V : Type} [DecidableEq V] [Inhabited V] (faces : List (List V))
    (unstripped : Finset ℕ) :
    List (List V) × List (List V) × List V × List V × List (Finset ℕ) :=
  if h : unstripped.Nonempty then
    let i := unstripped.min' h
    let face := faces.getD i []
    let orders := if face.length = 4 then [[0, 1, 3, 2], [1, 2, 0, 3]]
      else [[0, 1, 2], [1, 2, 0], [2, 0, 1]]
    match hbest : pickLongest (orders.map fun o =>
        extend_strip faces i o unstripped) with
    | none => ([], [], [], [], [])
    | some sf =>
      let rest := stripAux faces (unstripped \ sf.2)
      if sf.2.card > 1 then
        if face.length = 4 then
          (rest.1, sf.1 :: rest.2.1, rest.2.2.1, rest.2.2.2.1,
           sf.2 :: rest.2.2.2.2)
        else
          (sf.1 :: rest.1, rest.2.1, rest.2.2.1, rest.2.2.2.1,
           sf.2 :: rest.2.2.2.2)
      else
        if face.length = 4 then
          (rest.1, rest.2.1, rest.2.2.1,
           [sf.1.getD 0 default, sf.1.getD 1 default, sf.1.getD 3 default,
            sf.1.getD 2 default] ++ rest.2.2.2.1,
           sf.2 :: rest.2.2.2.2)
        else
          (rest.1, rest.2.1, sf.1 ++ rest.2.2.1, rest.2.2.2.1,
           sf.2 :: rest.2.2.2.2)
  else ([], [], [], [], [])
termination_by unstripped.card
decreasing_by
  have hsf := pickLongest_mem hbest
  obtain ⟨o, ho, hsfeq⟩ := List.mem_map.mp hsf
  have hi_mem : unstripped.min' h ∈ unstripped := unstripped.min'_mem h
  have hspec := extend_strip_spec faces (unstripped.min' h) o unstripped
  rw [hsfeq] at hspec
  have hsub : sf.2 ⊆ unstripped := by
    refine le_trans hspec.2 ?_
    rw [Finset.insert_eq_self.mpr hi_mem]
  exact Finset.card_lt_card
    (Finset.sdiff_ssubset hsub ⟨unstripped.min' h, hspec.1⟩)

/-- `Geometry.strip` from `util.py`: the four outputs
`(tri_strips, quad_strips, tris, quads)`. -/
def strip {V : Type} [DecidableEq V] [Inhabited V] (faces : List (List V)) :
    List (List V) × List (List V) × List V × List V :=
  ((stripAux faces (Finset.range faces.length)).1,
   (stripAux faces (Finset.range faces.length)).2.1,
   (stripAux faces (Finset.range faces.length)).2.2.1,
   (stripAux faces (Finset.range faces.length)).2.2.2.1)

theorem stripAux_eq_empty {V : Type} [DecidableEq V] [Inhabited V]
    (faces : List (List V)) (unstripped : Finset ℕ)
    (h : ¬unstripped.Nonempty) :
    stripAux faces unstripped = ([], [], [], [], []) := by
  rw [stripAux.eq_def, dif_neg h]

theorem stripAux_consumed_eq {V : Type} [DecidableEq V] [Inhabited V]
    (faces : List (List V)) (unstripped : Finset ℕ) (h : unstripped.Nonempty)
    (sf : List V × Finset ℕ)
    (hbest : pickLongest
      ((if (faces.getD (unstripped.min' h) []).length = 4 then
          [[0, 1, 3, 2], [1, 2, 0, 3]]
        else [[0, 1, 2], [1, 2, 0], [2, 0, 1]]).map fun o =>
        extend_strip faces (unstripped.min' h) o unstripped) = some sf) :
    (stripAux faces unstripped).2.2.2.2 =
      sf.2 :: (stripAux faces (unstripped \ sf.2)).2.2.2.2 := by
  rw [stripAux.eq_def, dif_pos h]
  dsimp only
  split
  · rename_i heq
    rw [hbest] at heq
    exact absurd heq (by simp)
  · rename_i sf' heq
    rw [hbest] at heq
    injection heq with heq
    subst heq
    split
    · split <;> rfl
    · split <;> rfl

theorem subset_foldr_union (t : Finset ℕ) :
    ∀ l : List (Finset ℕ), t ∈ l → t ⊆ l.foldr (· ∪ ·) ∅ := by
  intro l
  induction l with
  | nil => intro hm; exact absurd hm (by simp)
  | cons s rest ih =>
      intro hm
      rw [List.foldr_cons]
      rcases List.mem_cons.mp hm with rfl | hm'
      · exact Finset.subset_union_left
      · exact le_trans (ih hm') Finset.subset_union_right

theorem stripAux_partition {V : Type} [DecidableEq V] [Inhabited V]
    (faces : List (List V)) :
    ∀ (n : ℕ) (unstripped : Finset ℕ), unstripped.card ≤ n →
      ((stripAux faces unstripped).2.2.2.2).foldr (· ∪ ·) ∅ = unstripped ∧
      List.Pairwise (fun s t => Disjoint s t)
        ((stripAux faces unstripped).2.2.2.2) := by
  intro n
  induction n with
  | zero =>
      intro unstripped hcard
      have he : unstripped = ∅ := Finset.card_eq_zero.mp (Nat.le_zero.mp hcard)
      subst he
      rw [stripAux_eq_empty faces ∅ (by simp)]
      exact ⟨rfl, List.Pairwise.nil⟩
  | succ n ih =>
      intro unstripped hcard
      by_cases h : unstripped.Nonempty
      · have hne : ((if (faces.getD (unstripped.min' h) []).length = 4 then
            [[0, 1, 3, 2], [1, 2, 0, 3]]
          else [[0, 1, 2], [1, 2, 0], [2, 0, 1]]).map fun o =>
            extend_strip faces (unstripped.min' h) o unstripped) ≠ [] := by
          split <;> simp
        obtain ⟨sf, hbest⟩ :=
          Option.isSome_iff_exists.mp (pickLongest_isSome _ hne)
        have hsf := pickLongest_mem hbest
        obtain ⟨o, ho, hsfeq⟩ := List.mem_map.mp hsf
        have hspec := extend_strip_spec faces (unstripped.min' h) o unstripped
        rw [hsfeq] at hspec
        have hi_mem := unstripped.min'_mem h
        have hsub : sf.2 ⊆ unstripped := by
          refine le_trans hspec.2 ?_
          rw [Finset.insert_eq_self.mpr hi_mem]
        have hlt : (unstripped \ sf.2).card < unstripped.card :=
          Finset.card_lt_card (Finset.sdiff_ssubset hsub ⟨_, hspec.1⟩)
        have hcard' : (unstripped \ sf.2).card ≤ n := by omega
        obtain ⟨ihu, ihp⟩ := ih (unstripped \ sf.2) hcard'
        rw [stripAux_consumed_eq faces unstripped h sf hbest]
        constructor
        · rw [List.foldr_cons, ihu]
          exact Finset.union_sdiff_of_subset hsub
        · refine List.Pairwise.cons ?_ ihp
          intro t ht
          have htsub : t ⊆ unstripped \ sf.2 :=
            ihu ▸ subset_foldr_union t _ ht
          exact Finset.disjoint_left.mpr fun a ha hat =>
            (Finset.mem_sdiff.mp (htsub hat)).2 ha
      · rw [stripAux_eq_empty faces unstripped h]
        exact ⟨(Finset.not_nonempty_iff_eq_empty.mp h).symm, List.Pairwise.nil⟩

/-- **C1.** Each iteration of `Geometry.strip`'s main loop commits its
chosen strip to exactly one of the four outputs (tri_strips, quad_strips,
tris, quads) and removes the consumed face indices from `unstripped`; the
per-iteration consumed-index sets are pairwise disjoint and their union is
the whole index range of `faces` — every face is used by exactly one
emitted primitive. -/
theorem strip_consumes_each_face_once {V : Type} [DecidableEq V] [Inhabited V]
    (faces : List (List V)) :
    ((stripAux faces (Finset.range faces.length)).2.2.2.2).foldr
        (· ∪ ·) ∅ = Finset.range faces.length ∧
    List.Pairwise (fun s t => Disjoint s t)
      ((stripAux faces (Finset.range faces.length)).2.2.2.2) :=
  stripAux_partition faces (Finset.range faces.length).card
    (Finset.range faces.length) le_rfl

/-! ## Display-list interpreter (`import_display_list`, `import_bmd.py`
lines 102-195, and `read_vertex`, lines 51-99)

The interpreter is modelled as an `Except`-valued state machine over the
command-stream bytes.  The mutable interpreter state is the data offset, the
current primitive type (`None` before the first `0x40`), and the sizes of
the vertex/face accumulators; the decoded vertex attribute values (position,
normal, color, UV, group id) do not influence control flow, offsets or error
behaviour, so the model tracks how many vertices and faces are appended but
not their contents. -/

namespace DisplayList

/-- Modelled from the spec: `to_uint_list(data_bytes, offset, 1, 4)` and the
other byte readers of `util.py` used by the interpreter are not under
`src/`; per the spec each 4-byte word holds up to 4 one-byte opcodes read
from the data stream, and Python's sliced `int.from_bytes` yields `0` for a
fully out-of-range 1-byte read, which `getD 0` reproduces. -/
def byteAt (data : List ℕ) (i : ℕ) : ℕ := data.getD i 0

/-- Interpreter state of `import_display_list`: `p_type = none` models
Python's `p_type is None` (equivalently `vertices is None`: both are set
together, only by opcode `0x40`). -/
structure St where
  offset : ℕ
  p_type : Option ℕ
  nverts : ℕ
  nfaces : ℕ
  accum_verts : ℕ
  accum_faces : ℕ
  deriving Repr, DecidableEq

/-- `read_vertex` from `import_bmd.py`: appends one vertex, appends a face
according to the primitive type and running vertex count, and advances the
offset by 8 bytes for opcode `0x23` and 4 bytes otherwise. -/
def read_vertex (cmd : ℕ) (s : St) : St :=
  let nverts := s.nverts + 1
  let nfaces :=
    match s.p_type with
    | some 0 => if nverts % 3 = 0 then s.nfaces + 1 else s.nfaces
    | some 1 => if nverts % 4 = 0 then s.nfaces + 1 else s.nfaces
    | some 2 => if nverts ≥ 3 then s.nfaces + 1 else s.nfaces
    | some 3 => if nverts % 2 = 0 ∧ nverts ≥ 4 then s.nfaces + 1 else s.nfaces
    | _ => s.nfaces
  { s with nverts := nverts, nfaces := nfaces,
           offset := s.offset + (if cmd = 0x23 then 8 else 4) }

/-- One opcode dispatch step of the `for cmd in cmds` loop of
`import_display_list`.  A vertex opcode with `p_type = none` corresponds to
Python appending to the `None` vertex list (an `AttributeError`); an
unrecognized opcode corresponds to the explicit
`raise Exception("Unknown GX command: ...")`. -/
def execCmd (data : List ℕ) (cmd : ℕ) (s : St) : Except String St :=
  if cmd = 0x40 then
    .ok { s with p_type := some (byteAt data s.offset % 4),
                 accum_verts := s.accum_verts + (if s.p_type.isSome then s.nverts else 0),
                 accum_faces := s.accum_faces + (if s.p_type.isSome then s.nfaces else 0),
                 nverts := 0, nfaces := 0,
                 offset := s.offset + 4 }
  else if cmd = 0x14 then .ok { s with offset := s.offset + 4 }
  else if cmd = 0x20 ∨ cmd = 0x21 ∨ cmd = 0x22 then .ok { s with offset := s.offset + 4 }
  else if cmd = 0x23 ∨ cmd = 0x24 ∨ cmd = 0x25 ∨ cmd = 0x26 ∨ cmd = 0x27 ∨ cmd = 0x28 then
    match s.p_type with
    | none => .error "AttributeError: vertex list is None"
    | some _ => .ok (read_vertex cmd s)
  else if cmd = 0x34 then .ok { s with offset := s.offset + 128 }
  else if cmd = 0x16 ∨ cmd = 0x18 then .ok { s with offset := s.offset + 64 }
  else if cmd = 0x17 ∨ cmd = 0x19 then .ok { s with offset := s.offset + 48 }
  else if cmd = 0x1a then .ok { s with offset := s.offset + 36 }
  else if cmd = 0x1b ∨ cmd = 0x1c ∨ cmd = 0x70 then .ok { s with offset := s.offset + 12 }
  else if cmd = 0x71 then .ok { s with offset := s.offset + 8 }
  else if cmd = 0x10 ∨ cmd = 0x12 ∨ cmd = 0x13 ∨ cmd = 0x29 ∨ cmd = 0x2a ∨ cmd = 0x2b ∨
      cmd = 0x30 ∨ cmd = 0x31 ∨ cmd = 0x32 ∨ cmd = 0x33 ∨ cmd = 0x50 ∨ cmd = 0x60 ∨
      cmd = 0x72 then .ok { s with offset := s.offset + 4 }
  else if cmd = 0x00 ∨ cmd = 0x11 ∨ cmd = 0x15 ∨ cmd = 0x41 then .ok s
  else .error ("Unknown GX command: " ++ toString cmd ++ " at offset: " ++ toString s.offset)

/-- One iteration of the `while offset < len(data_bytes)` loop: read the
4 opcode bytes of the current word, advance the offset past them, then
dispatch the 4 opcodes in order. -/
def execWord (data : List ℕ) (s : St) : Except String St :=
  let c0 := byteAt data s.offset
  let c1 := byteAt data (s.offset + 1)
  let c2 := byteAt data (s.offset + 2)
  let c3 := byteAt data (s.offset + 3)
  execCmd data c0 { s with offset := s.offset + 4 } >>= execCmd data c1 >>=
    execCmd data c2 >>= execCmd data c3

theorem read_vertex_offset (cmd : ℕ) (s : St) :
    (read_vertex cmd s).offset = s.offset + (if cmd = 0x23 then 8 else 4) := rfl

theorem execCmd_offset_mono {data : List ℕ} {cmd : ℕ} {s s' : St}
    (h : execCmd data cmd s = .ok s') : s.offset ≤ s'.offset := by
  unfold execCmd at h
  by_cases c1 : cmd = 0x40
  · rw [if_pos c1] at h; injection h with h; subst h; exact Nat.le_add_right _ _
  rw [if_neg c1] at h
  by_cases c2 : cmd = 0x14
  · rw [if_pos c2] at h; injection h with h; subst h; exact Nat.le_add_right _ _
  rw [if_neg c2] at h
  by_cases c3 : cmd = 0x20 ∨ cmd = 0x21 ∨ cmd = 0x22
  · rw [if_pos c3] at h; injection h with h; subst h; exact Nat.le_add_right _ _
  rw [if_neg c3] at h
  by_cases c4 : cmd = 0x23 ∨ cmd = 0x24 ∨ cmd = 0x25 ∨ cmd = 0x26 ∨ cmd = 0x27 ∨ cmd = 0x28
  · rw [if_pos c4] at h
    cases hp : s.p_type with
    | none => rw [hp] at h; exact absurd h (by simp)
    | some pt =>
        rw [hp] at h; injection h with h; subst h
        rw [read_vertex_offset]; split <;> omega
  rw [if_neg c4] at h
  by_cases c5 : cmd = 0x34
  · rw [if_pos c5] at h; injection h with h; subst h; exact Nat.le_add_right _ _
  rw [if_neg c5] at h
  by_cases c6 : cmd = 0x16 ∨ cmd = 0x18
  · rw [if_pos c6] at h; injection h with h; subst h; exact Nat.le_add_right _ _
  rw [if_neg c6] at h
  by_cases c7 : cmd = 0x17 ∨ cmd = 0x19
  · rw [if_pos c7] at h; injection h with h; subst h; exact Nat.le_add_right _ _
  rw [if_neg c7] at h
  by_cases c8 : cmd = 0x1a
  · rw [if_pos c8] at h; injection h with h; subst h; exact Nat.le_add_right _ _
  rw [if_neg c8] at h
  by_cases c9 : cmd = 0x1b ∨ cmd = 0x1c ∨ cmd = 0x70
  · rw [if_pos c9] at h; injection h with h; subst h; exact Nat.le_add_right _ _
  rw [if_neg c9] at h
  by_cases c10 : cmd = 0x71
  · rw [if_pos c10] at h; injection h with h; subst h; exact Nat.le_add_right _ _
  rw [if_neg c10] at h
  by_cases c11 : cmd = 0x10 ∨ cmd = 0x12 ∨ cmd = 0x13 ∨ cmd = 0x29 ∨ cmd = 0x2a ∨
      cmd = 0x2b ∨ cmd = 0x30 ∨ cmd = 0x31 ∨ cmd = 0x32 ∨ cmd = 0x33 ∨ cmd = 0x50 ∨
      cmd = 0x60 ∨ cmd = 0x72
  · rw [if_pos c11] at h; injection h with h; subst h; exact Nat.le_add_right _ _
  rw [if_neg c11] at h
  by_cases c12 : cmd = 0x00 ∨ cmd = 0x11 ∨ cmd = 0x15 ∨ cmd = 0x41
  · rw [if_pos c12] at h; injection h with h; subst h; exact Nat.le.refl
  rw [if_neg c12] at h
  exact absurd h (by simp)

theorem exceptBind_ok {ε α β : Type} {x : Except ε α} {f : α → Except ε β} {b : β} :
    x >>= f = .ok b ↔ ∃ a, x = .ok a ∧ f a = .ok b := by
  cases x <;> simp [Bind.bind, Except.bind]

theorem execWord_offset {data : List ℕ} {s s' : St}
    (h : execWord data s = .ok s') : s.offset + 4 ≤ s'.offset := by
  unfold execWord at h
  rw [exceptBind_ok] at h
  obtain ⟨s3, h3, h4⟩ := h
  rw [exceptBind_ok] at h3
  obtain ⟨s2, h2, h3'⟩ := h3
  rw [exceptBind_ok] at h2
  obtain ⟨s1, h1, h2'⟩ := h2
  have m1 := execCmd_offset_mono h1
  have m2 := execCmd_offset_mono h2'
  have m3 := execCmd_offset_mono h3'
  have m4 := execCmd_offset_mono h4
  simp only at m1
  omega

/-- The `while offset < len(data_bytes)` loop of `import_display_list`.
Termination: every word strictly advances the offset by at least 4. -/
def runDL (data : List ℕ) (s : St) : Except String St :=
  if h : s.offset < data.length then
    match hw : execWord data s with
    | .error e => .error e
    | .ok s' => runDL data s'
  else .ok s
termination_by data.length - s.offset
decreasing_by
  have := execWord_offset hw
  omega

/-- `import_display_list` from `import_bmd.py`, applied to the extracted
command-stream bytes: runs the interpreter from the initial state and, on
success, performs the final `if vertices is not None` flush, returning the
total vertex and face counts of the accumulated geometry. -/
def import_display_list (data : List ℕ) : Except String (ℕ × ℕ) :=
  match runDL data ⟨0, none, 0, 0, 0, 0⟩ with
  | .error e => .error e
  | .ok s => .ok (s.accum_verts + (if s.p_type.isSome then s.nverts else 0),
                  s.accum_faces + (if s.p_type.isSome then s.nfaces else 0))

/-- The opcodes enumerated by the `if/elif` dispatch of
`import_display_list`. -/
def knownCmds : List ℕ :=
  [0x40, 0x14, 0x20, 0x21, 0x22, 0x23, 0x24, 0x25, 0x26, 0x27, 0x28,
   0x34, 0x16, 0x18, 0x17, 0x19, 0x1a, 0x1b, 0x1c, 0x70, 0x71,
   0x10, 0x12, 0x13, 0x29, 0x2a, 0x2b, 0x30, 0x31, 0x32, 0x33, 0x50, 0x60, 0x72,
   0x00, 0x11, 0x15, 0x41]

/-- The fixed-width skip opcodes and their documented byte widths
(128/64/48/36/12/8/4/0). -/
def skipWidths : List (ℕ × ℕ) :=
  [(0x34, 128), (0x16, 64), (0x18, 64), (0x17, 48), (0x19, 48), (0x1a, 36),
   (0x1b, 12), (0x1c, 12), (0x70, 12), (0x71, 8),
   (0x10, 4), (0x12, 4), (0x13, 4), (0x29, 4), (0x2a, 4), (0x2b, 4), (0x30, 4),
   (0x31, 4), (0x32, 4), (0x33, 4), (0x50, 4), (0x60, 4), (0x72, 4),
   (0x00, 0), (0x11, 0), (0x15, 0), (0x41, 0)]

/-- C9: the display-list interpreter raises a fatal error on any opcode
outside the enumerated set (and the error propagates out of the word loop
and out of `import_display_list`, so no partial geometry is produced), and
each recognized fixed-width skip opcode advances the data offset by exactly
its documented byte width, changing nothing else in the state. -/
theorem import_display_list_opcode_dispatch (data : List ℕ) (s : St) :
    (∀ cmd, cmd ∉ knownCmds →
      execCmd data cmd s =
        .error ("Unknown GX command: " ++ toString cmd ++ " at offset: " ++
          toString s.offset)) ∧
    (∀ cmd w, (cmd, w) ∈ skipWidths →
      execCmd data cmd s = .ok { s with offset := s.offset + w }) ∧
    (∀ e, s.offset < data.length → execWord data s = .error e →
      runDL data s = .error e) ∧
    (∀ e, runDL data ⟨0, none, 0, 0, 0, 0⟩ = .error e →
      import_display_list data = .error e) := by
  refine ⟨fun cmd hcmd => ?_, fun cmd w hmem => ?_, fun e hlt hw => ?_, fun e h => ?_⟩
  · simp only [knownCmds, List.mem_cons, List.not_mem_nil, or_false] at hcmd
    push_neg at hcmd
    unfold execCmd
    rw [if_neg (by omega : ¬ cmd = 0x40), if_neg (by omega : ¬ cmd = 0x14),
      if_neg (by omega : ¬ (cmd = 0x20 ∨ cmd = 0x21 ∨ cmd = 0x22)),
      if_neg (by omega : ¬ (cmd = 0x23 ∨ cmd = 0x24 ∨ cmd = 0x25 ∨ cmd = 0x26 ∨
        cmd = 0x27 ∨ cmd = 0x28)),
      if_neg (by omega : ¬ cmd = 0x34),
      if_neg (by omega : ¬ (cmd = 0x16 ∨ cmd = 0x18)),
      if_neg (by omega : ¬ (cmd = 0x17 ∨ cmd = 0x19)),
      if_neg (by omega : ¬ cmd = 0x1a),
      if_neg (by omega : ¬ (cmd = 0x1b ∨ cmd = 0x1c ∨ cmd = 0x70)),
      if_neg (by omega : ¬ cmd = 0x71),
      if_neg (by omega : ¬ (cmd = 0x10 ∨ cmd = 0x12 ∨ cmd = 0x13 ∨ cmd = 0x29 ∨
        cmd = 0x2a ∨ cmd = 0x2b ∨ cmd = 0x30 ∨ cmd = 0x31 ∨ cmd = 0x32 ∨ cmd = 0x33 ∨
        cmd = 0x50 ∨ cmd = 0x60 ∨ cmd = 0x72)),
      if_neg (by omega : ¬ (cmd = 0x00 ∨ cmd = 0x11 ∨ cmd = 0x15 ∨ cmd = 0x41))]
  · fin_cases hmem <;> (cases s; rfl)
  · unfold runDL
    rw [dif_pos hlt]
    split
    · rename_i e' heq
      rw [hw] at heq
      injection heq with heq
      rw [heq]
    · rename_i s' heq
      rw [hw] at heq
      exact absurd heq (by simp)
  · unfold import_display_list
    rw [h]

/-- Witness for C9: unrecognized opcode `0x99` errors from the initial
state; skip opcode `0x34` advances the offset by exactly 128. -/
theorem import_display_list_opcode_dispatch_witness :
    execCmd [] 0x99 ⟨0, none, 0, 0, 0, 0⟩ =
      .error ("Unknown GX command: " ++ toString (0x99 : ℕ) ++ " at offset: " ++
        toString (0 : ℕ)) ∧
    execCmd [] 0x34 ⟨0, none, 0, 0, 0, 0⟩ = .ok ⟨128, none, 0, 0, 0, 0⟩ := by
  constructor
  · exact (import_display_list_opcode_dispatch [] ⟨0, none, 0, 0, 0, 0⟩).1 0x99 (by decide)
  · have h := (import_display_list_opcode_dispatch [] ⟨0, none, 0, 0, 0, 0⟩).2.1
      0x34 128 (by decide)
    simpa using h

end DisplayList

/-! ## Byte-buffer assembler (`AlignedBytes`, `BytesPtr`,
`BytesWithPtrs.assemble`, `util.py` lines 512-567) -/

namespace Assembler

/-- `AlignedBytes`: a byte segment with its declared alignment. -/
structure AlignedBytes where
  bytestr : List ℕ
  byte_align : ℕ
  deriving Repr, DecidableEq, Inhabited

/-- `BytesPtr`, with the source/destination segments already replaced by
their indices in the `bytestrs` table, exactly as `assemble` itself first
does via `self.bytestrs.index(ptr.src_bytestr)` (faithful whenever each
segment object occurs once in the table). -/
structure BytesPtr where
  src_index : ℕ
  src_offset : ℕ
  dest_index : ℕ
  dest_offset : ℕ
  num_bytes : ℕ
  deriving Repr, DecidableEq

/-- `self.bytestrs[i+1].byte_align if i+1 < len(self.bytestrs) else 4`:
the alignment used to pad the current segment, taken from the tail of the
segment list. -/
def nextAlign : List AlignedBytes → ℕ
  | [] => 4
  | b2 :: _ => b2.byte_align

/-- `(byte_align - position - len(bytestr)) % byte_align`: the number of
zero padding bytes appended after a segment. -/
def padCount (b : AlignedBytes) (pos align : ℕ) : ℕ :=
  (align - (pos + b.bytestr.length) % align) % align

/-- A segment padded for its position: `bytestr + (...) % byte_align * b"\x00"`. -/
def paddedSeg (b : AlignedBytes) (pos : ℕ) (rest : List AlignedBytes) : List ℕ :=
  b.bytestr ++ List.replicate (padCount b pos (nextAlign rest)) 0

/-- The placement loop of `assemble`: each segment is padded with
`(byte_align - position - len(bytestr)) % byte_align` zero bytes, where
`byte_align` is the *next* segment's declared alignment, and recorded
together with its placed position.  (Python's `%` on a negative left
operand equals the nonnegative form used in `padCount`.) -/
def placeBytestrs : List AlignedBytes → ℕ → List (List ℕ × ℕ)
  | [], _ => []
  | b :: rest, position =>
      (paddedSeg b position rest, position) ::
        placeBytestrs rest (position + (paddedSeg b position rest).length)

/-- Python's in-place slice assignment
`placed_bytestrs[src][0][off : off + v.length] = v` (the assigned value has
exactly the length of the replaced range). -/
def writeBytes (l : List ℕ) (off : ℕ) (v : List ℕ) : List ℕ :=
  l.take off ++ (v ++ l.drop (off + v.length))

/-- One iteration of the pointer-resolution loop of `assemble`: overwrite
the pointer's source field with the placed position of the destination
segment plus the destination offset, encoded little-endian on
`num_bytes` bytes. -/
def resolveOne (pl : List (List ℕ × ℕ)) (p : BytesPtr) : List (List ℕ × ℕ) :=
  pl.set p.src_index
    (writeBytes (pl.getD p.src_index ([], 0)).1 p.src_offset
       (from_uint ((pl.getD p.dest_index ([], 0)).2 + p.dest_offset) p.num_bytes),
     (pl.getD p.src_index ([], 0)).2)

/-- `BytesWithPtrs.assemble`: place all segments, then resolve every
pointer against the placed positions, then concatenate
(`reduce(lambda b, pb: b + pb[0], placed_bytestrs, b"")`). -/
def assemble (bytestrs : List AlignedBytes) (ptrs : List BytesPtr) : List ℕ :=
  ((ptrs.foldl resolveOne (placeBytestrs bytestrs 0)).map Prod.fst).flatten

/-- The byte-length of the (padded) segment at index `i`. -/
def lenAt (pl : List (List ℕ × ℕ)) (i : ℕ) : ℕ := (pl.getD i ([], 0)).1.length

/-- The placed position of the segment at index `i`. -/
def posAt (pl : List (List ℕ × ℕ)) (i : ℕ) : ℕ := (pl.getD i ([], 0)).2

/-- The sub-list of `n` bytes starting at offset `off`. -/
def sliceAt (l : List ℕ) (off n : ℕ) : List ℕ := (l.drop off).take n

theorem pad_aligns (n align : ℕ) (h : 0 < align) :
    (n + (align - n % align) % align) % align = 0 := by
  rcases Nat.eq_zero_or_pos (n % align) with hr | hr
  · rw [show align - n % align = align by omega, Nat.mod_self, Nat.add_zero, hr]
  · have hlt : n % align < align := Nat.mod_lt _ h
    have key : (n + (align - n % align)) % align = 0 := by
      have hdm := Nat.div_add_mod n align
      rw [show n + (align - n % align) = align * (n / align) + align by omega,
        ← Nat.mul_succ]
      exact Nat.mul_mod_right align _
    rw [Nat.mod_eq_of_lt (by omega : align - n % align < align)]
    exact key

theorem writeBytes_length (l v : List ℕ) (off : ℕ) (h : off + v.length ≤ l.length) :
    (writeBytes l off v).length = l.length := by
  simp [writeBytes]
  omega

theorem sliceAt_writeBytes_self (l v : List ℕ) (off : ℕ)
    (h : off + v.length ≤ l.length) :
    sliceAt (writeBytes l off v) off v.length = v := by
  have hlen : (l.take off).length = off := by
    simp
    omega
  simp only [sliceAt, writeBytes]
  rw [List.drop_append_eq_append_drop, hlen, Nat.sub_self, List.drop_zero,
    List.drop_eq_nil_of_le (le_of_eq hlen), List.nil_append]
  exact List.take_left v _

theorem sliceAt_writeBytes_other (l v : List ℕ) (off off' n' : ℕ)
    (hb : off + v.length ≤ l.length)
    (hdisj : off' + n' ≤ off ∨ off + v.length ≤ off') :
    sliceAt (writeBytes l off v) off' n' = sliceAt l off' n' := by
  have hoff : off ≤ l.length := by omega
  have hlen : (l.take off).length = off := by simp; omega
  rcases hdisj with hlt | hgt
  · simp only [sliceAt, writeBytes]
    rw [List.drop_append_eq_append_drop, hlen,
      show off' - off = 0 by omega, List.drop_zero,
      List.take_append_eq_append_take]
    have h1 : ((l.take off).drop off').length = off - off' := by simp; omega
    rw [h1, show n' - (off - off') = 0 by omega, List.take_zero, List.append_nil,
      List.drop_take, List.take_take, Nat.min_eq_left (by omega : n' ≤ off - off')]
  · simp only [sliceAt, writeBytes]
    rw [List.drop_append_eq_append_drop,
      List.drop_eq_nil_of_le (by rw [hlen]; omega : (l.take off).length ≤ off'),
      List.nil_append, hlen,
      List.drop_append_eq_append_drop,
      List.drop_eq_nil_of_le (by omega : v.length ≤ off' - off), List.nil_append,
      List.drop_drop, show off + v.length + (off' - off - v.length) = off' by omega]

/-- The total byte-length of a placed-segment list. -/
def sumLens (pl : List (List ℕ × ℕ)) : ℕ := (pl.map (fun pb => pb.1.length)).sum

theorem from_uint_length (n k : ℕ) : (from_uint n k).length = k := by
  induction k generalizing n with
  | zero => rfl
  | succ k ih => simp [from_uint, ih]

theorem place_length (bs : List AlignedBytes) (pos : ℕ) :
    (placeBytestrs bs pos).length = bs.length := by
  induction bs generalizing pos with
  | nil => rfl
  | cons b rest ih => simp [placeBytestrs, ih]

theorem place_pos_prefix (bs : List AlignedBytes) (pos : ℕ) (i : ℕ)
    (h : i < bs.length) :
    posAt (placeBytestrs bs pos) i = pos + sumLens ((placeBytestrs bs pos).take i) := by
  induction bs generalizing pos i with
  | nil => simp at h
  | cons b rest ih =>
      cases i with
      | zero => simp [placeBytestrs, posAt, sumLens]
      | succ i =>
          have h' : i < rest.length := by simpa using h
          simp only [placeBytestrs, posAt, List.getD_cons_succ, List.take_succ_cons,
            sumLens, List.map_cons, List.sum_cons]
          rw [← Nat.add_assoc]
          simpa only [posAt, sumLens] using ih _ i h'

theorem place_cons (b : AlignedBytes) (rest : List AlignedBytes) (pos : ℕ) :
    placeBytestrs (b :: rest) pos =
      (paddedSeg b pos rest, pos) ::
        placeBytestrs rest (pos + (paddedSeg b pos rest).length) := rfl

theorem posAt_cons_zero (x : List ℕ × ℕ) (L : List (List ℕ × ℕ)) :
    posAt (x :: L) 0 = x.2 := rfl

theorem posAt_cons_succ (x : List ℕ × ℕ) (L : List (List ℕ × ℕ)) (i : ℕ) :
    posAt (x :: L) (i + 1) = posAt L i := rfl

theorem lenAt_cons_succ (x : List ℕ × ℕ) (L : List (List ℕ × ℕ)) (i : ℕ) :
    lenAt (x :: L) (i + 1) = lenAt L i := rfl

theorem sumLens_cons (x : List ℕ × ℕ) (L : List (List ℕ × ℕ)) :
    sumLens (x :: L) = x.1.length + sumLens L := by
  simp [sumLens]

/-- The padding of segment `i` is computed from the *next* segment's
declared alignment: consequently every segment after the first is placed at
a multiple of its own `byte_align`. -/
theorem place_align (bs : List AlignedBytes) (pos : ℕ)
    (haligns : ∀ b ∈ bs, 0 < b.byte_align) (i : ℕ) (h : i + 1 < bs.length) :
    posAt (placeBytestrs bs pos) (i + 1) %
      (bs.getD (i + 1) default).byte_align = 0 := by
  induction bs generalizing pos i with
  | nil => simp at h
  | cons b rest ih =>
      cases rest with
      | nil => simp at h
      | cons r rest' =>
          cases i with
          | zero =>
              have hr : 0 < r.byte_align := haligns r (by simp)
              rw [place_cons, posAt_cons_succ, List.getD_cons_succ, List.getD_cons_zero,
                place_cons, posAt_cons_zero]
              simp only [paddedSeg, List.length_append, List.length_replicate, padCount,
                nextAlign]
              rw [← Nat.add_assoc]
              exact pad_aligns (pos + b.bytestr.length) r.byte_align hr
          | succ i =>
              have h' : i + 1 < (r :: rest').length := by simpa using h
              rw [place_cons, posAt_cons_succ, List.getD_cons_succ]
              exact ih _ (fun x hx => haligns x (List.mem_cons_of_mem _ hx)) i h'

/-- The last segment is padded to alignment 4: for a nonempty segment list
the total placed length ends at a multiple of 4. -/
theorem place_total_mod4 (bs : List AlignedBytes) (pos : ℕ) (hne : bs ≠ []) :
    (pos + sumLens (placeBytestrs bs pos)) % 4 = 0 := by
  induction bs generalizing pos with
  | nil => exact absurd rfl hne
  | cons b rest ih =>
      cases rest with
      | nil =>
          rw [place_cons, sumLens_cons]
          simp only [placeBytestrs, sumLens, List.map_nil, List.sum_nil, Nat.add_zero]
          simp only [paddedSeg, List.length_append, List.length_replicate, padCount,
            nextAlign]
          rw [← Nat.add_assoc]
          exact pad_aligns (pos + b.bytestr.length) 4 (by norm_num)
      | cons r rest' =>
          rw [place_cons, sumLens_cons, ← Nat.add_assoc]
          exact ih _ (by simp)

theorem getD_set_self {α : Type} {pl : List α} {i : ℕ} (h : i < pl.length)
    (a d : α) : (pl.set i a).getD i d = a := by
  rw [List.getD_eq_getElem?_getD, List.getElem?_set_self h]
  rfl

theorem getD_set_ne {α : Type} {pl : List α} {i j : ℕ} (h : i ≠ j) (a d : α) :
    (pl.set i a).getD j d = pl.getD j d := by
  rw [List.getD_eq_getElem?_getD, List.getElem?_set_ne h, ← List.getD_eq_getElem?_getD]

/-- The (padded, possibly pointer-patched) byte content of segment `i`. -/
def fstAt (pl : List (List ℕ × ℕ)) (i : ℕ) : List ℕ := (pl.getD i ([], 0)).1

/-- A pointer whose indices and source field lie inside the placed table —
what `assemble` requires of its input to run without an index error. -/
def goodPtr (pl0 : List (List ℕ × ℕ)) (p : BytesPtr) : Prop :=
  p.src_index < pl0.length ∧ p.dest_index < pl0.length ∧
    p.src_offset + p.num_bytes ≤ lenAt pl0 p.src_index

/-- Two pointers whose source fields do not overlap. -/
def ptrDisj (p q : BytesPtr) : Prop :=
  p.src_index ≠ q.src_index ∨ p.src_offset + p.num_bytes ≤ q.src_offset ∨
    q.src_offset + q.num_bytes ≤ p.src_offset

theorem resolveOne_length (pl : List (List ℕ × ℕ)) (p : BytesPtr) :
    (resolveOne pl p).length = pl.length := List.length_set ..

theorem posAt_resolveOne (pl : List (List ℕ × ℕ)) (p : BytesPtr)
    (hsrc : p.src_index < pl.length) (i : ℕ) :
    posAt (resolveOne pl p) i = posAt pl i := by
  by_cases hij : p.src_index = i
  · subst hij
    rw [resolveOne, posAt, getD_set_self hsrc]
    rfl
  · rw [resolveOne, posAt, getD_set_ne hij, ← posAt]


theorem lenAt_resolveOne (pl : List (List ℕ × ℕ)) (p : BytesPtr)
    (hsrc : p.src_index < pl.length)
    (hb : p.src_offset + p.num_bytes ≤ lenAt pl p.src_index) (i : ℕ) :
    lenAt (resolveOne pl p) i = lenAt pl i := by
  by_cases hij : p.src_index = i
  · subst hij
    rw [resolveOne, lenAt, getD_set_self hsrc]
    rw [writeBytes_length]
    · rfl
    · rw [from_uint_length]
      exact hb
  · rw [resolveOne, lenAt, getD_set_ne hij, ← lenAt]

theorem fstAt_resolveOne_self (pl : List (List ℕ × ℕ)) (p : BytesPtr)
    (hsrc : p.src_index < pl.length) :
    fstAt (resolveOne pl p) p.src_index =
      writeBytes (fstAt pl p.src_index) p.src_offset
        (from_uint (posAt pl p.dest_index + p.dest_offset) p.num_bytes) := by
  rw [resolveOne, fstAt, getD_set_self hsrc]
  rfl

theorem fstAt_resolveOne_ne (pl : List (List ℕ × ℕ)) (p : BytesPtr) (i : ℕ)
    (hij : p.src_index ≠ i) : fstAt (resolveOne pl p) i = fstAt pl i := by
  rw [resolveOne, fstAt, getD_set_ne hij, ← fstAt]

/-- Segment placement happens before pointer resolution: the resolution
fold never changes any segment's placed position or byte-length. -/
theorem fold_shape (pl0 : List (List ℕ × ℕ)) (ptrs : List BytesPtr) :
    ∀ pl, pl.length = pl0.length → (∀ i, lenAt pl i = lenAt pl0 i) →
      (∀ i, posAt pl i = posAt pl0 i) → (∀ q ∈ ptrs, goodPtr pl0 q) →
      (ptrs.foldl resolveOne pl).length = pl0.length ∧
      (∀ i, lenAt (ptrs.foldl resolveOne pl) i = lenAt pl0 i) ∧
      (∀ i, posAt (ptrs.foldl resolveOne pl) i = posAt pl0 i) := by
  induction ptrs with
  | nil => exact fun pl h1 h2 h3 _ => ⟨h1, h2, h3⟩
  | cons x rest ih =>
      intro pl h1 h2 h3 hgood
      obtain ⟨hx1, hx2, hx3⟩ := hgood x (by simp)
      have hsrc : x.src_index < pl.length := by omega
      have hb : x.src_offset + x.num_bytes ≤ lenAt pl x.src_index := by
        rw [h2]; exact hx3
      rw [List.foldl_cons]
      exact ih (resolveOne pl x)
        (by rw [resolveOne_length, h1])
        (fun i => by rw [lenAt_resolveOne pl x hsrc hb, h2])
        (fun i => by rw [posAt_resolveOne pl x hsrc, h3])
        (fun q hq => hgood q (List.mem_cons_of_mem _ hq))

/-- A region of a segment untouched by every pointer of the fold keeps its
bytes. -/
theorem fold_preserve_slice (pl0 : List (List ℕ × ℕ)) (i off nb : ℕ) :
    ∀ (ptrs : List BytesPtr) (pl : List (List ℕ × ℕ)),
      pl.length = pl0.length → (∀ j, lenAt pl j = lenAt pl0 j) →
      (∀ q ∈ ptrs, goodPtr pl0 q) →
      (∀ q ∈ ptrs, q.src_index ≠ i ∨ q.src_offset + q.num_bytes ≤ off ∨
        off + nb ≤ q.src_offset) →
      sliceAt (fstAt (ptrs.foldl resolveOne pl) i) off nb =
        sliceAt (fstAt pl i) off nb := by
  intro ptrs
  induction ptrs with
  | nil => intro pl _ _ _ _; rfl
  | cons x rest ih =>
      intro pl h1 h2 hgood hdisj
      obtain ⟨hx1, hx2, hx3⟩ := hgood x (by simp)
      have hsrc : x.src_index < pl.length := by omega
      have hb : x.src_offset + x.num_bytes ≤ lenAt pl x.src_index := by
        rw [h2]; exact hx3
      rw [List.foldl_cons,
        ih (resolveOne pl x)
          (by rw [resolveOne_length, h1])
          (fun j => by rw [lenAt_resolveOne pl x hsrc hb, h2])
          (fun q hq => hgood q (List.mem_cons_of_mem _ hq))
          (fun q hq => hdisj q (List.mem_cons_of_mem _ hq))]
      rcases hdisj x (by simp) with hne | hreg | hreg
      · rw [fstAt_resolveOne_ne pl x i hne]
      · by_cases hix : x.src_index = i
        · subst hix
          rw [fstAt_resolveOne_self pl x hsrc]
          exact sliceAt_writeBytes_other _ _ _ _ _
            (by rw [from_uint_length]; exact hb)
            (Or.inr (by rw [from_uint_length]; omega))
        · rw [fstAt_resolveOne_ne pl x i hix]
      · by_cases hix : x.src_index = i
        · subst hix
          rw [fstAt_resolveOne_self pl x hsrc]
          exact sliceAt_writeBytes_other _ _ _ _ _
            (by rw [from_uint_length]; exact hb)
            (Or.inl (by omega))
        · rw [fstAt_resolveOne_ne pl x i hix]

/-- After the resolution fold, every pointer's source field holds the
little-endian encoding of its destination's placed position plus the
destination offset. -/
theorem fold_slices (pl0 : List (List ℕ × ℕ)) :
    ∀ (ptrs : List BytesPtr) (pl : List (List ℕ × ℕ)),
      pl.length = pl0.length → (∀ j, lenAt pl j = lenAt pl0 j) →
      (∀ j, posAt pl j = posAt pl0 j) →
      (∀ q ∈ ptrs, goodPtr pl0 q) → ptrs.Pairwise ptrDisj →
      ∀ p ∈ ptrs,
        sliceAt (fstAt (ptrs.foldl resolveOne pl) p.src_index) p.src_offset
            p.num_bytes =
          from_uint (posAt pl0 p.dest_index + p.dest_offset) p.num_bytes := by
  intro ptrs
  induction ptrs with
  | nil => intro pl _ _ _ _ _ p hp; simp at hp
  | cons x rest ih =>
      intro pl h1 h2 h3 hgood hpw p hp
      obtain ⟨hx1, hx2, hx3⟩ := hgood x (by simp)
      have hsrc : x.src_index < pl.length := by omega
      have hb : x.src_offset + x.num_bytes ≤ lenAt pl x.src_index := by
        rw [h2]; exact hx3
      have hsh1 : (resolveOne pl x).length = pl0.length := by
        rw [resolveOne_length, h1]
      have hsh2 : ∀ j, lenAt (resolveOne pl x) j = lenAt pl0 j :=
        fun j => by rw [lenAt_resolveOne pl x hsrc hb, h2]
      have hsh3 : ∀ j, posAt (resolveOne pl x) j = posAt pl0 j :=
        fun j => by rw [posAt_resolveOne pl x hsrc, h3]
      rcases List.mem_cons.mp hp with rfl | hpr
      · rw [List.foldl_cons,
          fold_preserve_slice pl0 p.src_index p.src_offset p.num_bytes rest
            (resolveOne pl p) hsh1 hsh2
            (fun q hq => hgood q (List.mem_cons_of_mem _ hq))
            (fun q hq => by
              rcases (List.pairwise_cons.mp hpw).1 q hq with hne | hr | hr
              · exact Or.inl (fun hc => hne hc.symm)
              · exact Or.inr (Or.inr hr)
              · exact Or.inr (Or.inl hr)),
          fstAt_resolveOne_self pl p hsrc, h3]
        have hlen : (from_uint (posAt pl0 p.dest_index + p.dest_offset)
            p.num_bytes).length = p.num_bytes := from_uint_length _ _
        calc sliceAt (writeBytes (fstAt pl p.src_index) p.src_offset
              (from_uint (posAt pl0 p.dest_index + p.dest_offset) p.num_bytes))
              p.src_offset p.num_bytes
            = sliceAt (writeBytes (fstAt pl p.src_index) p.src_offset
              (from_uint (posAt pl0 p.dest_index + p.dest_offset) p.num_bytes))
              p.src_offset (from_uint (posAt pl0 p.dest_index + p.dest_offset)
                p.num_bytes).length := by rw [hlen]
          _ = from_uint (posAt pl0 p.dest_index + p.dest_offset) p.num_bytes := by
              apply sliceAt_writeBytes_self
              rw [hlen]
              exact hb
      · rw [List.foldl_cons]
        exact ih (resolveOne pl x) hsh1 hsh2 hsh3
          (fun q hq => hgood q (List.mem_cons_of_mem _ hq))
          (List.pairwise_cons.mp hpw).2 p hpr

theorem flatten_sliceAt :
    ∀ (L : List (List ℕ)) (i : ℕ), i < L.length → ∀ (off n : ℕ),
      off + n ≤ (L.getD i []).length →
      sliceAt L.flatten ((((L.take i).map List.length).sum) + off) n =
        sliceAt (L.getD i []) off n := by
  intro L
  induction L with
  | nil => intro i hi; simp at hi
  | cons hd tl ih =>
      intro i hi off n hb
      cases i with
      | zero =>
          simp only [List.getD_cons_zero] at hb
          simp only [List.take_zero, List.map_nil, List.sum_nil, Nat.zero_add,
            List.flatten_cons, List.getD_cons_zero, sliceAt]
          rw [List.drop_append_eq_append_drop,
            show off - hd.length = 0 by omega, List.drop_zero,
            List.take_append_eq_append_take]
          have h1 : (hd.drop off).length = hd.length - off := by simp
          rw [h1, show n - (hd.length - off) = 0 by omega, List.take_zero,
            List.append_nil]
      | succ i =>
          have hi' : i < tl.length := by simpa using hi
          simp only [List.getD_cons_succ] at hb
          simp only [List.take_succ_cons, List.map_cons, List.sum_cons,
            List.flatten_cons, List.getD_cons_succ, sliceAt]
          rw [show hd.length + ((tl.take i).map List.length).sum + off =
              hd.length + (((tl.take i).map List.length).sum + off) from by omega,
            List.drop_append_eq_append_drop,
            List.drop_eq_nil_of_le (by omega : hd.length ≤
              hd.length + (((tl.take i).map List.length).sum + off)),
            List.nil_append,
            show hd.length + (((tl.take i).map List.length).sum + off) - hd.length =
              ((tl.take i).map List.length).sum + off from by omega]
          simpa only [sliceAt] using ih i hi' off n hb

theorem sumLens_eq_of :
    ∀ (pl pl0 : List (List ℕ × ℕ)), pl.length = pl0.length →
      (∀ i, i < pl.length → lenAt pl i = lenAt pl0 i) → sumLens pl = sumLens pl0 := by
  intro pl
  induction pl with
  | nil =>
      intro pl0 h _
      rw [List.length_eq_zero.mp h.symm]
  | cons x xs ih =>
      intro pl0 h hp
      cases pl0 with
      | nil => simp at h
      | cons y ys =>
          rw [sumLens_cons, sumLens_cons]
          have h0 := hp 0 (by simp)
          simp only [lenAt, List.getD_cons_zero] at h0
          rw [h0, ih ys (by simpa using h) (fun i hi => by
            have := hp (i + 1) (by simpa using hi)
            simpa only [lenAt_cons_succ] using this)]

theorem getD_take {α : Type} (l : List α) (i j : ℕ) (h : j < i) (d : α) :
    (l.take i).getD j d = l.getD j d := by
  rw [List.getD_eq_getElem?_getD, List.getD_eq_getElem?_getD, List.getElem?_take,
    if_pos h]

theorem getD_map_fst (pl : List (List ℕ × ℕ)) (i : ℕ) (h : i < pl.length) :
    (pl.map Prod.fst).getD i [] = fstAt pl i := by
  rw [List.getD_eq_getElem?_getD, List.getElem?_map, fstAt, List.getD_eq_getElem?_getD,
    List.getElem?_eq_getElem h]
  rfl

/-- C8: `assemble` pads each segment with zero bytes using the *next*
segment's declared alignment (the last segment is padded to alignment 4):
consequently every segment after the first is placed at a multiple of its
own declared alignment, and the total output length is a multiple of 4.
All segments are placed before any pointer is resolved (the resolution fold
changes no placed position and no segment length), and each pointer's
source field is overwritten with the placed position of its destination
segment plus the destination offset, as an unsigned little-endian integer
of the pointer's byte width. -/
theorem assemble_spec (bytestrs : List AlignedBytes) (ptrs : List BytesPtr)
    (haligns : ∀ b ∈ bytestrs, 0 < b.byte_align)
    (hgood : ∀ p ∈ ptrs, goodPtr (placeBytestrs bytestrs 0) p)
    (hdisj : ptrs.Pairwise ptrDisj) :
    (∀ i, i + 1 < bytestrs.length →
      posAt (placeBytestrs bytestrs 0) (i + 1) %
        (bytestrs.getD (i + 1) default).byte_align = 0) ∧
    (assemble bytestrs ptrs).length % 4 = 0 ∧
    (∀ p ∈ ptrs,
      sliceAt (assemble bytestrs ptrs)
          (posAt (placeBytestrs bytestrs 0) p.src_index + p.src_offset)
          p.num_bytes =
        from_uint (posAt (placeBytestrs bytestrs 0) p.dest_index + p.dest_offset)
          p.num_bytes) := by
  obtain ⟨hf1, hf2, hf3⟩ := fold_shape (placeBytestrs bytestrs 0) ptrs
    (placeBytestrs bytestrs 0) rfl (fun _ => rfl) (fun _ => rfl) hgood
  refine ⟨fun i hi => place_align bytestrs 0 haligns i hi, ?_, fun p hp => ?_⟩
  · have hlen : (assemble bytestrs ptrs).length =
        sumLens (ptrs.foldl resolveOne (placeBytestrs bytestrs 0)) := by
      rw [assemble, List.length_flatten, List.map_map]
      rfl
    rw [hlen, sumLens_eq_of _ (placeBytestrs bytestrs 0) hf1 (fun i _ => hf2 i)]
    cases bytestrs with
    | nil => rfl
    | cons b rest => simpa using place_total_mod4 (b :: rest) 0 (by simp)
  · obtain ⟨hp1, hp2, hp3⟩ := hgood p hp
    have hfin_len : (ptrs.foldl resolveOne (placeBytestrs bytestrs 0)).length =
        (placeBytestrs bytestrs 0).length := hf1
    have hsrcfin : p.src_index <
        (ptrs.foldl resolveOne (placeBytestrs bytestrs 0)).length := by omega
    have hpos : posAt (placeBytestrs bytestrs 0) p.src_index =
        sumLens ((placeBytestrs bytestrs 0).take p.src_index) := by
      have hlt : p.src_index < bytestrs.length := by
        rw [← place_length bytestrs 0]; exact hp1
      simpa using place_pos_prefix bytestrs 0 p.src_index hlt
    have hsl : sumLens ((ptrs.foldl resolveOne (placeBytestrs bytestrs 0)).take
        p.src_index) = sumLens ((placeBytestrs bytestrs 0).take p.src_index) := by
      apply sumLens_eq_of
      · simp [hf1]
      · intro j hj
        have hj' : j < p.src_index := by
          simp only [List.length_take] at hj
          omega
        rw [lenAt, getD_take _ _ _ hj', lenAt, getD_take _ _ _ hj', ← lenAt, ← lenAt,
          hf2 j]
    have hpre : ((((ptrs.foldl resolveOne (placeBytestrs bytestrs 0)).map
        Prod.fst).take p.src_index).map List.length).sum =
        sumLens ((placeBytestrs bytestrs 0).take p.src_index) := by
      rw [List.map_take, List.map_map, ← List.map_take]
      exact hsl
    have hslice := fold_slices (placeBytestrs bytestrs 0) ptrs
      (placeBytestrs bytestrs 0) rfl (fun _ => rfl) (fun _ => rfl) hgood hdisj p hp
    have hflat := flatten_sliceAt
      ((ptrs.foldl resolveOne (placeBytestrs bytestrs 0)).map Prod.fst)
      p.src_index (by simpa using hsrcfin) p.src_offset p.num_bytes
      (by rw [getD_map_fst _ _ hsrcfin]
          have : (fstAt (ptrs.foldl resolveOne (placeBytestrs bytestrs 0))
              p.src_index).length =
              lenAt (ptrs.foldl resolveOne (placeBytestrs bytestrs 0)) p.src_index :=
            rfl
          rw [this, hf2]
          exact hp3)
    rw [getD_map_fst _ _ hsrcfin] at hflat
    rw [assemble, hpos, ← hpre]
    rw [hflat, hslice]

/-- Witness for C8: two segments `[1,2]` (align 4) and `[3]` (align 2) with
one 1-byte pointer from the second segment to itself; the pointer field
holds the destination's placed position 2. -/
theorem assemble_spec_witness :
    sliceAt (assemble [⟨[1, 2], 4⟩, ⟨[3], 2⟩] [⟨1, 0, 1, 0, 1⟩])
        (posAt (placeBytestrs [⟨[1, 2], 4⟩, ⟨[3], 2⟩] 0) 1 + 0) 1 =
      from_uint (posAt (placeBytestrs [⟨[1, 2], 4⟩, ⟨[3], 2⟩] 0) 1 + 0) 1 :=
  (assemble_spec [⟨[1, 2], 4⟩, ⟨[3], 2⟩] [⟨1, 0, 1, 0, 1⟩]
    (by decide)
    (by
      intro p hp
      simp only [List.mem_singleton] at hp
      subst hp
      exact ⟨by decide, by decide, by decide⟩)
    (by simp)).2.2 ⟨1, 0, 1, 0, 1⟩ (by simp)

end Assembler

/-! ## 4×4 block compression (`Texel4x4`, `Texture.reduce_colors`,
`util.py` lines 225-291 and 401-421)

Pixels are RGBA 4-tuples (`Color5`).  Python's `set(colors)` is modelled as
`colors.dedup` (first-occurrence order as the canonical enumeration of the
set); the pair-merge loop of `reduce_colors` breaks ties among
minimal-distance pairs by that same enumeration order, matching `sorted`'s
stability up to the set's unspecified iteration order.  The claims below
only exercise inputs whose color count is already within the target, where
the loop body never runs and no tie-breaking is involved. -/

/-- `(c0 + c1) // 2`, componentwise over the 4 channels. -/
def blendMid (c0 c1 : Color5) : Color5 :=
  ((c0.1 + c1.1) / 2, (c0.2.1 + c1.2.1) / 2, (c0.2.2.1 + c1.2.2.1) / 2,
   (c0.2.2.2 + c1.2.2.2) / 2)

/-- `(c0 * 5 + c1 * 3) // 8`, componentwise. -/
def blend53 (c0 c1 : Color5) : Color5 :=
  ((c0.1 * 5 + c1.1 * 3) / 8, (c0.2.1 * 5 + c1.2.1 * 3) / 8,
   (c0.2.2.1 * 5 + c1.2.2.1 * 3) / 8, (c0.2.2.2 * 5 + c1.2.2.2 * 3) / 8)

/-- `(c0 * 3 + c1 * 5) // 8`, componentwise. -/
def blend35 (c0 c1 : Color5) : Color5 :=
  ((c0.1 * 3 + c1.1 * 5) / 8, (c0.2.1 * 3 + c1.2.1 * 5) / 8,
   (c0.2.2.1 * 3 + c1.2.2.1 * 5) / 8, (c0.2.2.2 * 3 + c1.2.2.2 * 5) / 8)

/-- `(a - b) ** 2` over Python ints, as naturals. -/
def sqDiff (a b : ℕ) : ℕ := (max a b - min a b) ^ 2

/-- The sort key of `reduce_colors`: merging a transparent with an opaque
color is penalized first (the 4-tuple case of `len(cp[0]) == 4`), then
squared Euclidean distance over the 4 shared channels. -/
def pairKey (cp : Color5 × Color5) : ℕ × ℕ :=
  ((if (alphaOf cp.1 = 0) ≠ (alphaOf cp.2 = 0) then 1 else 0),
   sqDiff cp.1.1 cp.2.1 + sqDiff cp.1.2.1 cp.2.2.1 +
     sqDiff cp.1.2.2.1 cp.2.2.2.1 + sqDiff (alphaOf cp.1) (alphaOf cp.2))

def keyLt (k1 k2 : ℕ × ℕ) : Prop := k1.1 < k2.1 ∨ (k1.1 = k2.1 ∧ k1.2 < k2.2)

instance (k1 k2 : ℕ × ℕ) : Decidable (keyLt k1 k2) := by
  unfold keyLt
  infer_instance

/-- `sorted(pairs, key=...)[0]`: the first pair attaining the minimal key,
in generation order (`for c0 in reduced for c1 in reduced if c0 != c1`). -/
def pickMinPair (prs : List (Color5 × Color5)) : Option (Color5 × Color5) :=
  prs.foldl (fun best cp =>
    match best with
    | none => some cp
    | some b => if keyLt (pairKey cp) (pairKey b) then some cp else best) none

namespace Texture

/-- The body of the `while len(reduced) > new_num` merge loop of
`Texture.reduce_colors`, recursing on an upper bound for the number of
remaining iterations (each iteration removes two colors from the reduced
set and adds back one of them, so the initial set size bounds the loop). -/
def reduce_loop : ℕ → List Color5 → List Color5 → List Color5 → ℕ →
    List Color5 × List Color5
  | 0, reduced, new_colors, _, _ => (new_colors, reduced)
  | fuel + 1, reduced, new_colors, colors, new_num =>
      if reduced.length ≤ new_num then (new_colors, reduced)
      else
        match pickMinPair ((reduced.product reduced).filter fun cp => cp.1 ≠ cp.2) with
        | none => (new_colors, reduced)
        | some (c0, c1) =>
            let new_color := if colors.count c1 > colors.count c0 then c1 else c0
            let reduced' := (reduced.filter fun c => c ≠ c0 ∧ c ≠ c1) ++ [new_color]
            let new_colors' :=
              new_colors.map fun c => if c = c0 ∨ c = c1 then new_color else c
            reduce_loop fuel reduced' new_colors' colors new_num

/-- `Texture.reduce_colors(colors, new_num)` from `util.py`: iterative
pairwise nearest-color merging until at most `new_num` distinct colors
remain; returns the remapped color list and the reduced palette. -/
def reduce_colors (colors : List Color5) (new_num : ℕ) : List Color5 × List Color5 :=
  reduce_loop colors.dedup.length colors.dedup colors colors new_num

/-- When the distinct-color count is already within the target, the merge
loop never runs: the colors are returned unchanged together with their
distinct set. -/
theorem reduce_colors_of_le (colors : List Color5) (new_num : ℕ)
    (h : colors.dedup.length ≤ new_num) :
    reduce_colors colors new_num = (colors, colors.dedup) := by
  rw [reduce_colors]
  cases hd : colors.dedup.length with
  | zero => rfl
  | succ k => rw [reduce_loop, if_pos (by omega)]

end Texture

/-- The state of a `Texel4x4` after `__init__`. -/
structure Texel4x4 where
  colors : List Color5
  palette : List Color5
  transparency : Bool
  palette_set : List Color5
  interp : Bool

/-- One iteration of the `for perm in permutations(self.palette_set)` loop
of `Texel4x4.__init__`: the state is `(palette_set, interp, transparency)`;
the 3-permutation midpoint test and the 4-permutation 5:3/3:5 test are two
independent `if`s, exactly as in the source (the `assert not transparency`
of the 4-color branch is a runtime check, not part of the state update). -/
def interpStep (st : List Color5 × Bool × Bool) (perm : List Color5) :
    List Color5 × Bool × Bool :=
  let st1 :=
    match perm with
    | [p0, p1, p2] =>
        if p2 = blendMid p0 p1 then ([p0, p1], true, true) else st
    | _ => st
  match perm with
  | [p0, p1, p2, p3] =>
      if p2 = blend53 p0 p1 ∧ p3 = blend35 p0 p1 then ([p0, p1], true, st1.2.2)
      else st1
  | _ => st1

/-- `Texel4x4.__init__(colors)` from `util.py`: fully-transparent pixels are
canonicalized to `(0,0,0,0)`, the block is reduced to at most 4 colors, and
the reduced palette is tested against the 2-color interpolation patterns
over all permutations of its non-transparent part. -/
def mkTexel4x4 (input_colors : List Color5) : Texel4x4 :=
  let cp := Texture.reduce_colors
    (input_colors.map fun c => if alphaOf c ≠ 0 then c else (0, 0, 0, 0)) 4
  let transparency0 := cp.1.any fun c => alphaOf c = 0
  let palette_set0 := cp.2.filter fun c => alphaOf c ≠ 0
  let res := palette_set0.permutations.foldl interpStep
    (palette_set0, false, transparency0)
  { colors := cp.1, palette := cp.2, transparency := res.2.2,
    palette_set := res.1, interp := res.2.1 }

/-- `sum(idx << (w * i) for i, idx in enumerate(l))`: little-endian packing
of a list of `w`-bit fields. -/
def packBits (w : ℕ) : List ℕ → ℕ
  | [] => 0
  | x :: xs => x + 2 ^ w * packBits w xs

/-- `Texel4x4.get_bytestrs(palette)` from `util.py`, with the texel's slot
`index` (set by `add_to_color_map`) passed explicitly.  Returns
`(tex_bytestr, pal_index_bytestr)` together with the final value of
`self.palette` — the 4-entry slot slice with the transparent and
interpolated entries synthesized (`none` models a `None` placeholder that
was never overwritten; `zip(*self.palette[0:2])` with a `None` endpoint
would be a Python `TypeError`, which the claims never reach). -/
def Texel4x4.get_bytestrs (t : Texel4x4) (palette : List Color5) (index : ℕ) :
    List ℕ × List ℕ × List (Option Color5) :=
  let pal0 := ((palette.drop index).take 4).map some
  let pal1 := pal0 ++ List.replicate (4 - pal0.length) (none : Option Color5)
  let pal2 := if t.transparency then pal1.set 3 (some (0, 0, 0, 0)) else pal1
  let pal3 :=
    if t.interp then
      match pal2.getD 0 none, pal2.getD 1 none with
      | some c0, some c1 =>
          if t.transparency then pal2.set 2 (some (blendMid c0 c1))
          else (pal2.set 2 (some (blend53 c0 c1))).set 3 (some (blend35 c0 c1))
      | _, _ => pal2
    else pal2
  let indexes := t.colors.map fun c => pyIndex pal3 (some c)
  let tex_bytestr := from_uint (packBits 2 indexes) 4
  let pal_index := index / 2 + (if t.interp then 2 ^ 14 else 0) +
    (if !t.transparency then 2 ^ 15 else 0)
  (tex_bytestr, from_uint pal_index 2, pal3)

theorem packBits_lt (w : ℕ) (l : List ℕ) (hb : ∀ x ∈ l, x < 2 ^ w) :
    packBits w l < 2 ^ (w * l.length) := by
  induction l with
  | nil => simp [packBits]
  | cons x xs ih =>
      have hx := hb x (by simp)
      have hxs := ih (fun y hy => hb y (List.mem_cons_of_mem _ hy))
      simp only [packBits, List.length_cons]
      have h1 : 2 ^ (w * (xs.length + 1)) = 2 ^ w * 2 ^ (w * xs.length) := by
        rw [Nat.mul_add, Nat.mul_one, Nat.pow_add, Nat.mul_comm]
      rw [h1]
      nlinarith [Nat.pos_pow_of_pos (w * xs.length) (show 0 < 2 by norm_num)]

theorem packBits_extract (w : ℕ) (l : List ℕ) (hb : ∀ x ∈ l, x < 2 ^ w) :
    ∀ i, i < l.length → packBits w l / 2 ^ (w * i) % 2 ^ w = l.getD i 0 := by
  induction l with
  | nil => intro i hi; simp at hi
  | cons x xs ih =>
      intro i hi
      cases i with
      | zero =>
          simp only [packBits, Nat.mul_zero, Nat.pow_zero, Nat.div_one,
            List.getD_cons_zero]
          rw [Nat.add_mul_mod_self_left, Nat.mod_eq_of_lt (hb x (by simp))]
      | succ i =>
          have hi' : i < xs.length := by simpa using hi
          simp only [packBits, List.getD_cons_succ]
          rw [show w * (i + 1) = w + w * i by ring, Nat.pow_add,
            ← Nat.div_div_eq_div_mul,
            Nat.add_mul_div_left _ _ (Nat.pos_pow_of_pos w (by norm_num)),
            Nat.div_eq_of_lt (hb x (by simp)), Nat.zero_add]
          exact ih (fun y hy => hb y (List.mem_cons_of_mem _ hy)) i hi'

theorem blend53_comm (a b : Color5) : blend53 a b = blend35 b a := by
  unfold blend53 blend35
  simp only [Prod.mk.injEq]
  exact ⟨by rw [Nat.add_comm], by rw [Nat.add_comm], by rw [Nat.add_comm],
    by rw [Nat.add_comm]⟩

theorem blend35_comm (a b : Color5) : blend35 a b = blend53 b a := by
  rw [blend53_comm]

theorem interpStep_interp_mono (st : List Color5 × Bool × Bool)
    (perm : List Color5) (h : st.2.1 = true) :
    (interpStep st perm).2.1 = true := by
  unfold interpStep
  repeat' split
  all_goals simp_all

theorem interpStep_tr_of_len (st : List Color5 × Bool × Bool)
    (perm : List Color5) (hlen : perm.length ≠ 3) :
    (interpStep st perm).2.2 = st.2.2 := by
  unfold interpStep
  repeat' split
  all_goals simp_all

theorem interpStep_fires (st : List Color5 × Bool × Bool) (p0 p1 : Color5) :
    (interpStep st [p0, p1, blend53 p0 p1, blend35 p0 p1]).2.1 = true := by
  unfold interpStep
  simp

theorem foldl_interpStep_mono (perms : List (List Color5)) :
    ∀ st, st.2.1 = true → (perms.foldl interpStep st).2.1 = true := by
  induction perms with
  | nil => exact fun st h => h
  | cons p rest ih =>
      intro st h
      exact ih (interpStep st p) (interpStep_interp_mono st p h)

theorem foldl_interpStep_fires (p0 p1 : Color5) (perms : List (List Color5))
    (hmem : [p0, p1, blend53 p0 p1, blend35 p0 p1] ∈ perms) :
    ∀ st, (perms.foldl interpStep st).2.1 = true := by
  induction perms with
  | nil => simp at hmem
  | cons q rest ih =>
      intro st
      rcases List.mem_cons.mp hmem with heq | hmem'
      · rw [List.foldl_cons, ← heq]
        exact foldl_interpStep_mono rest _ (interpStep_fires st p0 p1)
      · exact ih hmem' (interpStep st q)

theorem foldl_interpStep_tr (perms : List (List Color5))
    (hlen : ∀ p ∈ perms, p.length ≠ 3) :
    ∀ st, (perms.foldl interpStep st).2.2 = st.2.2 := by
  induction perms with
  | nil => exact fun st => rfl
  | cons q rest ih =>
      intro st
      rw [List.foldl_cons, ih (fun p hp => hlen p (List.mem_cons_of_mem _ hp)),
        interpStep_tr_of_len st q (hlen q (by simp))]

theorem getD_pyIndex {α : Type} [DecidableEq α] (l : List α) (x : α)
    (hx : x ∈ l) (d : α) : l.getD (pyIndex l x) d = x := by
  induction l with
  | nil => simp at hx
  | cons y ys ih =>
      by_cases hxy : y = x
      · subst hxy
        simp [pyIndex]
      · have hx' : x ∈ ys := by
          rcases List.mem_cons.mp hx with h | h
          · exact absurd h.symm hxy
          · exact h
        rw [pyIndex, if_neg hxy]
        simpa using ih hx'

theorem pyIndex_lt_of_mem {α : Type} [DecidableEq α] {l : List α} {x : α}
    (hx : x ∈ l) : pyIndex l x < l.length := by
  induction l with
  | nil => simp at hx
  | cons y ys ih =>
      by_cases hxy : y = x
      · rw [pyIndex, if_pos hxy]
        simp
      · have hx' : x ∈ ys := by
          rcases List.mem_cons.mp hx with h | h
          · exact absurd h.symm hxy
          · exact h
        rw [pyIndex, if_neg hxy]
        simpa using ih hx'

theorem getD_map_of_lt {α β : Type} (f : α → β) (l : List α) (i : ℕ)
    (h : i < l.length) (d : β) (d' : α) :
    (l.map f).getD i d = f (l.getD i d') := by
  rw [List.getD_eq_getElem?_getD, List.getElem?_map, List.getElem?_eq_getElem h,
    List.getD_eq_getElem?_getD, List.getElem?_eq_getElem h]
  rfl

theorem set23_of_len4 (l : List (Option Color5)) (hlen : l.length = 4)
    (a b : Option Color5) :
    (l.set 2 a).set 3 b = [l.getD 0 none, l.getD 1 none, a, b] := by
  obtain ⟨x0, x1, x2, x3, rfl⟩ :
      ∃ x0 x1 x2 x3, l = [x0, x1, x2, x3] := by
    rcases l with _ | ⟨x0, l⟩
    · simp at hlen
    rcases l with _ | ⟨x1, l⟩
    · simp at hlen
    rcases l with _ | ⟨x2, l⟩
    · simp at hlen
    rcases l with _ | ⟨x3, l⟩
    · simp at hlen
    rcases l with _ | ⟨x4, l⟩
    · exact ⟨x0, x1, x2, x3, rfl⟩
    · simp at hlen
  rfl

/-- C6: a 16-pixel fully-opaque block whose distinct colors are exactly two
endpoints `c0, c1` together with their exact 5:3 and 3:5 weighted blends
gets `interp = true` from `Texel4x4.__init__`; and whenever the shared
palette holds the two endpoints (in either order) at the block's slot,
decoding the emitted 2-bit index stream against the palette with the two
synthesized interpolated entries reproduces every original pixel exactly. -/
theorem texel4x4_interp_weighted (pixels : List Color5) (c0 c1 : Color5)
    (hlen : pixels.length = 16)
    (halpha : ∀ c ∈ pixels, alphaOf c = 31)
    (hperm : pixels.dedup.Perm [c0, c1, blend53 c0 c1, blend35 c0 c1]) :
    (mkTexel4x4 pixels).interp = true ∧
    ∀ (palette : List Color5) (index : ℕ) (p0 p1 : Color5),
      (palette.drop index).take 2 = [p0, p1] →
      ((p0 = c0 ∧ p1 = c1) ∨ (p0 = c1 ∧ p1 = c0)) →
      ∀ i, i < 16 →
        ((mkTexel4x4 pixels).get_bytestrs palette index).2.2.getD
            (to_uint ((mkTexel4x4 pixels).get_bytestrs palette index).1 /
              4 ^ i % 4) none =
          some (pixels.getD i (0, 0, 0, 0)) := by
  have hmap : (pixels.map fun c => if alphaOf c ≠ 0 then c else (0, 0, 0, 0)) =
      pixels := by
    rw [show pixels.map (fun c => if alphaOf c ≠ 0 then c else (0, 0, 0, 0)) =
        pixels.map id from List.map_congr_left
        (fun c hc => by rw [if_pos (by rw [halpha c hc]; norm_num)]; rfl),
      List.map_id]
  have hd4 : pixels.dedup.length = 4 := by
    rw [hperm.length_eq]
    rfl
  have hreduce : Texture.reduce_colors pixels 4 = (pixels, pixels.dedup) :=
    Texture.reduce_colors_of_le pixels 4 (by omega)
  have halpha_dedup : ∀ c ∈ pixels.dedup, alphaOf c = 31 :=
    fun c hc => halpha c (List.mem_dedup.mp hc)
  have hfilter : pixels.dedup.filter (fun c => alphaOf c ≠ 0) = pixels.dedup := by
    rw [List.filter_eq_self]
    intro c hc
    rw [decide_eq_true_eq, halpha_dedup c hc]
    norm_num
  have htr0 : (pixels.any fun c => alphaOf c = 0) = false := by
    rw [← Bool.not_eq_true, List.any_eq_true]
    rintro ⟨c, hc, hc0⟩
    rw [decide_eq_true_eq, halpha c hc] at hc0
    omega
  have hmk : mkTexel4x4 pixels =
      { colors := pixels, palette := pixels.dedup,
        transparency := (pixels.dedup.permutations.foldl interpStep
          (pixels.dedup, false, false)).2.2,
        palette_set := (pixels.dedup.permutations.foldl interpStep
          (pixels.dedup, false, false)).1,
        interp := (pixels.dedup.permutations.foldl interpStep
          (pixels.dedup, false, false)).2.1 } := by
    rw [mkTexel4x4]
    simp only [hmap, hreduce, hfilter, htr0]
  have hlens : ∀ p ∈ pixels.dedup.permutations, p.length ≠ 3 := by
    intro p hp
    rw [(List.mem_permutations.mp hp).length_eq, hd4]
    omega
  have hinterp : (mkTexel4x4 pixels).interp = true := by
    rw [hmk]
    exact foldl_interpStep_fires c0 c1 _
      (List.mem_permutations.mpr (hperm.symm.trans (List.Perm.refl _)).symm.symm) _
  refine ⟨hinterp, ?_⟩
  have htr : (mkTexel4x4 pixels).transparency = false := by
    rw [hmk]
    exact foldl_interpStep_tr _ hlens _
  have hcolors : (mkTexel4x4 pixels).colors = pixels := by rw [hmk]
  intro palette index p0 p1 hslice hpair i hi
  -- shape of the slot slice
  have hdropeq : palette.drop index = p0 :: p1 :: (palette.drop index).drop 2 := by
    conv_lhs => rw [← List.take_append_drop 2 (palette.drop index), hslice]
    rfl
  -- the padded 4-entry slice
  have hpal0 : ((palette.drop index).take 4).map some =
      some p0 :: some p1 ::
        (((palette.drop index).drop 2).take 2).map some := by
    rw [hdropeq]
    rfl
  obtain ⟨q0, q1, hpal1⟩ : ∃ q0 q1,
      (((palette.drop index).take 4).map some) ++
        List.replicate (4 - (((palette.drop index).take 4).map some).length)
          (none : Option Color5) = [some p0, some p1, q0, q1] := by
    rw [hpal0]
    generalize hMdef : (((palette.drop index).drop 2).take 2).map
      (some : Color5 → Option Color5) = M
    have hMlen : M.length ≤ 2 := by
      rw [← hMdef]
      simp
    rcases M with _ | ⟨m0, _ | ⟨m1, _ | ⟨m2, M'⟩⟩⟩
    · exact ⟨none, none, rfl⟩
    · exact ⟨m0, none, rfl⟩
    · exact ⟨m0, m1, rfl⟩
    · simp at hMlen
  -- the whole result of get_bytestrs, with the synthesized palette
  have hgb : (mkTexel4x4 pixels).get_bytestrs palette index =
      (from_uint (packBits 2 (pixels.map fun c =>
        pyIndex ([some p0, some p1, some (blend53 p0 p1),
          some (blend35 p0 p1)] : List (Option Color5)) (some c))) 4,
       from_uint (index / 2 + 2 ^ 14 + 2 ^ 15) 2,
       [some p0, some p1, some (blend53 p0 p1), some (blend35 p0 p1)]) := by
    rw [Texel4x4.get_bytestrs]
    simp only [htr, hinterp, Bool.false_eq_true, if_false, if_true,
      Bool.not_false, hcolors, hpal1]
    rfl
  rw [hgb]
  -- membership of every pixel in the synthesized palette
  have hmemP : ∀ c ∈ pixels, (some c) ∈
      ([some p0, some p1, some (blend53 p0 p1),
        some (blend35 p0 p1)] : List (Option Color5)) := by
    intro c hc
    have hc4 : c ∈ [c0, c1, blend53 c0 c1, blend35 c0 c1] :=
      hperm.mem_iff.mp (List.mem_dedup.mpr hc)
    rcases hpair with ⟨h0, h1⟩ | ⟨h0, h1⟩ <;> rw [h0, h1]
    · simpa using hc4
    · rw [blend53_comm c1 c0, blend35_comm c1 c0]
      simp only [List.mem_cons, List.not_mem_nil, or_false,
        Option.some.injEq] at hc4 ⊢
      tauto
  have hidxlt : ∀ x ∈ (pixels.map fun c =>
      pyIndex ([some p0, some p1, some (blend53 p0 p1),
        some (blend35 p0 p1)] : List (Option Color5)) (some c)), x < 2 ^ 2 := by
    intro x hx
    obtain ⟨c, hc, rfl⟩ := List.mem_map.mp hx
    exact pyIndex_lt_of_mem (hmemP c hc)
  have hilen : (pixels.map fun c =>
      pyIndex ([some p0, some p1, some (blend53 p0 p1),
        some (blend35 p0 p1)] : List (Option Color5)) (some c)).length = 16 := by
    rw [List.length_map, hlen]
  have hnum : to_uint (from_uint (packBits 2 (pixels.map fun c =>
      pyIndex ([some p0, some p1, some (blend53 p0 p1),
        some (blend35 p0 p1)] : List (Option Color5)) (some c))) 4) =
      packBits 2 (pixels.map fun c =>
      pyIndex ([some p0, some p1, some (blend53 p0 p1),
        some (blend35 p0 p1)] : List (Option Color5)) (some c)) := by
    rw [to_uint_from_uint]
    apply Nat.mod_eq_of_lt
    have := packBits_lt 2 _ hidxlt
    rw [hilen] at this
    exact lt_of_lt_of_le this (by norm_num)
  rw [hnum, show (4 : ℕ) ^ i = 2 ^ (2 * i) by
      rw [show (4 : ℕ) = 2 ^ 2 from rfl, ← pow_mul],
    show (4 : ℕ) = 2 ^ 2 from rfl,
    packBits_extract 2 _ hidxlt i (by omega),
    getD_map_of_lt _ pixels i (by omega) 0 (0, 0, 0, 0)]
  exact getD_pyIndex _ _ (hmemP (pixels.getD i (0, 0, 0, 0)) (by
    have hg : pixels.getD i (0, 0, 0, 0) = pixels.get ⟨i, by omega⟩ := by
      rw [List.getD_eq_getElem?_getD, List.getElem?_eq_getElem (by omega)]
      rfl
    rw [hg]
    exact pixels.get_mem _ _)) none

/-- A concrete 16-pixel block for the C6 witness: 4 copies each of two
endpoint colors and their exact 5:3 and 3:5 blends. -/
def pixC6 : List Color5 :=
  List.replicate 4 ((8, 0, 0, 31) : Color5) ++ List.replicate 4 (0, 8, 0, 31) ++
    List.replicate 4 (5, 3, 0, 31) ++ List.replicate 4 (3, 5, 0, 31)

/-- Witness for C6: the block `pixC6` gets `interp = true`, and with the two
endpoints placed at slot 0 the decoded first pixel is reproduced exactly. -/
theorem texel4x4_interp_weighted_witness :
    (mkTexel4x4 pixC6).interp = true ∧
    ((mkTexel4x4 pixC6).get_bytestrs [(8, 0, 0, 31), (0, 8, 0, 31)] 0).2.2.getD
        (to_uint ((mkTexel4x4 pixC6).get_bytestrs
          [(8, 0, 0, 31), (0, 8, 0, 31)] 0).1 / 4 ^ 0 % 4) none =
      some (pixC6.getD 0 (0, 0, 0, 0)) := by
  have h := texel4x4_interp_weighted pixC6 (8, 0, 0, 31) (0, 8, 0, 31)
    (by decide) (by decide) (by decide)
  exact ⟨h.1, h.2 [(8, 0, 0, 31), (0, 8, 0, 31)] 0 (8, 0, 0, 31) (0, 8, 0, 31)
    (by decide) (Or.inl ⟨rfl, rfl⟩) 0 (by decide)⟩

/-- Witness for C10: the round-trip theorem applied at the concrete vector
`[3, -2, 1/2]` with 0 fractional bits. -/
theorem sign_int10_bijection_and_vecb_roundtrip_witness :
    to_vec30 (from_uint (from_vecb_num [3, -2, 1/2] 10 0).toNat 4) =
      (int_round_mid_up ((3 : ℚ) * 2 ^ 0), int_round_mid_up ((-2 : ℚ) * 2 ^ 0),
       int_round_mid_up ((1/2 : ℚ) * 2 ^ 0)) := by
  refine sign_int10_bijection_and_vecb_roundtrip.2.2 3 (-2) (1/2) 0 ?_
  intro v hv
  simp only [List.mem_cons, List.not_mem_nil, or_false] at hv
  rcases hv with rfl | rfl | rfl <;> norm_num [int_round_mid_up]


/-! ## Palette allocator (`Texel4x4.add_color_map` and friends, util.py)

The color-map array of `calc_bytestr_compressed` is a Python list whose
entries are `(set-of-colors, set-of-indexes)` tuples; entries of one
"class" alias the very same set objects, so an in-place mutation of a
class is seen by every array position of that class.  We model the array
by value: `CMapArr` stores the pair at each position, and a mutation of a
class writes the updated pair to every position of the class (exactly the
positions listed in the class's own index set, which is the aliasing
invariant the code maintains: fresh classes are created with
`cmap_arr[idx] = (new_cols_, s_idxs)` for each `idx in s_idxs`, and the
mutated remainder objects stay shared by the remaining positions).
Colors are opaque tokens (ℕ): the allocator only compares them for
equality.  Python's hash-dependent set iteration order (`list(cols)`,
`permutations(...)` over a set) is replaced by the canonical
`Finset.toList` order; the placement-success theorem is independent of
that choice.  Out-of-range reads return `(∅, ∅)`; the success proof shows
the executed scan never reads out of range.  `max()` of an empty set — a
Python `ValueError` — is modelled by the `none` of
`get_color_map_partition`, which `try_add_color_map_at` turns into
`.error`. -/

namespace Alloc

abbrev CMapArr := List (Finset ℕ × Finset ℕ)

/-- `cmap_arr[p]` (with an out-of-range default, see the section note). -/
def cmGet (A : CMapArr) (p : ℕ) : Finset ℕ × Finset ℕ := A.getD p (∅, ∅)

/-- `Texel4x4.get_color_map_partition`: walk `[b, e)`, at each step taking
the class of the current position together with its members inside the
window, and jumping past the largest such member (`begin = 1 +
max(partition[-1][2])`).  A step whose window-restriction is empty would
make Python's `max` raise; this is the `none` result. -/
def get_color_map_partition (A : CMapArr) (b e : ℕ) :
    Option (List (Finset ℕ × Finset ℕ × Finset ℕ)) :=
  if hbe : b < e then
    if hs : ((cmGet A b).2.filter fun n => b ≤ n ∧ n < e) = ∅ then none
    else
      (get_color_map_partition A
          (1 + ((cmGet A b).2.filter fun n => b ≤ n ∧ n < e).sup id) e).map
        fun rest => ((cmGet A b).1, (cmGet A b).2,
          (cmGet A b).2.filter fun n => b ≤ n ∧ n < e) :: rest
  else some []
termination_by e - b
decreasing_by
  obtain ⟨a, ha⟩ := Finset.nonempty_iff_ne_empty.mpr hs
  have h1 : b ≤ a := (Finset.mem_filter.mp ha).2.1
  have h2 : id a ≤ ((cmGet A b).2.filter fun n => b ≤ n ∧ n < e).sup id :=
    Finset.le_sup ha
  simp only [id_eq] at h2
  omega

/-- The `part_perm` slicing: each part takes the next `len(p)` entries of
the permutation as a set, minus `None`. -/
def partPerm : List (Finset ℕ × Finset ℕ × Finset ℕ) → List (Option ℕ) →
    List (Finset ℕ)
  | [], _ => []
  | cis :: ps, perm =>
      ((perm.take cis.2.2.card).filterMap id).toFinset ::
        partPerm ps (perm.drop cis.2.2.card)

/-- The `all(len(new_cols - cols) <= len(idxs) - len(cols) ...)` test
(Python `len` differences can go negative, hence the ℤ cast). -/
def feasibleSplit (parts : List (Finset ℕ × Finset ℕ × Finset ℕ))
    (news : List (Finset ℕ)) : Bool :=
  (parts.zip news).all fun pn =>
    decide (((pn.2 \ pn.1.1).card : ℤ) ≤ (pn.1.2.1.card : ℤ) - (pn.1.1.card : ℤ))

/-- Write one pair to every listed position. -/
def writeClass (A : CMapArr) (S : List ℕ) (v : Finset ℕ × Finset ℕ) :
    CMapArr :=
  S.foldl (fun a p => a.set p v) A

/-- The mutated remainder of a partition class `(cols, idxs, s_idxs)`
after the placement loop body: `idxs -= s_idxs; cols -= new_cols;
dragged = ...; cols -= dragged`. -/
def remPair (cis : Finset ℕ × Finset ℕ × Finset ℕ) (n : Finset ℕ) :
    Finset ℕ × Finset ℕ :=
  ((cis.1 \ n) \ ((cis.1 \ n).sort (· ≤ ·) |>.take
      ((cis.1 \ n).card - (cis.2.1 \ cis.2.2).card)).toFinset,
   cis.2.1 \ cis.2.2)

/-- The fresh class `(new_cols_, s_idxs) = (new_cols | dragged, s_idxs)`
written to every position of `s_idxs`. -/
def newPair (cis : Finset ℕ × Finset ℕ × Finset ℕ) (n : Finset ℕ) :
    Finset ℕ × Finset ℕ :=
  (n ∪ ((cis.1 \ n).sort (· ≤ ·) |>.take
      ((cis.1 \ n).card - (cis.2.1 \ cis.2.2).card)).toFinset,
   cis.2.2)

/-- One iteration of the placement loop, for one partition class and its
slice of the chosen permutation. -/
def applyOne (A : CMapArr) (cis : Finset ℕ × Finset ℕ × Finset ℕ)
    (n : Finset ℕ) : CMapArr :=
  writeClass (writeClass A ((cis.2.1 \ cis.2.2).sort (· ≤ ·)) (remPair cis n))
    (cis.2.2.sort (· ≤ ·)) (newPair cis n)

/-- The whole placement loop over `zip(partition, part_perm)`. -/
def apply_color_maps (A : CMapArr) :
    List (Finset ℕ × Finset ℕ × Finset ℕ) → List (Finset ℕ) → CMapArr
  | cis :: ps, n :: ns => apply_color_maps (applyOne A cis n) ps ns
  | _, _ => A

/-- `Texel4x4.try_add_color_map_at`: partition the window
`[i + min(idxs), i + max(idxs) + 1)`, then try the permutations of the
new colors padded with `None`s; the first one passing the feasibility
test is committed.  `.ok none` is Python's implicit `None` (no
permutation fits); `.error` is the `ValueError`/`min of empty` crash. -/
def try_add_color_map_at (A : CMapArr) (nc : Finset ℕ × Finset ℕ)
    (i : ℕ) : Except String (Option CMapArr) :=
  if h : nc.2.Nonempty then
    match get_color_map_partition A (i + nc.2.min' h)
        (i + nc.2.max' h + 1) with
    | none => .error "max arg is an empty sequence"
    | some parts =>
        match (((nc.1.sort (· ≤ ·)).map Option.some ++
            List.replicate (nc.2.card - nc.1.card) none).permutations).find?
            (fun perm => feasibleSplit parts (partPerm parts perm)) with
        | none => .ok none
        | some perm =>
            .ok (some (apply_color_maps A parts (partPerm parts perm)))
  else .error "min arg is an empty sequence"

/-- The first-fit scan body of `Texel4x4.add_color_map` over a given list
of candidate positions. -/
def add_color_map_go (A : CMapArr) (nc : Finset ℕ × Finset ℕ) :
    List ℕ → Except String (Option (ℕ × CMapArr))
  | [] => .ok none
  | i :: rest =>
      match try_add_color_map_at A nc i with
      | .error e => .error e
      | .ok none => add_color_map_go A nc rest
      | .ok (some A2) => .ok (some (i, A2))

/-- `Texel4x4.add_color_map`: scan `range(0, len(cmap_arr), 2)`; return
the first position where the block fits (with the updated array), `none`
if it falls off the end. -/
def add_color_map (A : CMapArr) (nc : Finset ℕ × Finset ℕ) :
    Except String (Option (ℕ × CMapArr)) :=
  add_color_map_go A nc ((List.range ((A.length + 1) / 2)).map (2 * ·))

/-- The initial array of `calc_bytestr_compressed`: `4 * N` positions all
aliasing the single class `(set(), set(range(4 * N)))`. -/
def init_cmap_arr (N : ℕ) : CMapArr :=
  List.replicate (4 * N) (∅, Finset.range (4 * N))

/-- The `for texel in sorted(...): texel.add_to_color_map(cmap_arr)` loop:
thread the array through `add_color_map` for each block, collecting the
assigned indexes.  `.ok none` means some block went unplaced (its `index`
would be Python `None`). -/
def place_blocks (A : CMapArr) :
    List (Finset ℕ × Finset ℕ) → Except String (Option (List ℕ × CMapArr))
  | [] => .ok (some ([], A))
  | nc :: rest =>
      match add_color_map A nc with
      | .error e => .error e
      | .ok none => .ok none
      | .ok (some iA) =>
          match place_blocks iA.2 rest with
          | .error e => .error e
          | .ok none => .ok none
          | .ok (some isA) => .ok (some (iA.1 :: isA.1, isA.2))

/-- Every in-range position is a member of its own class's index set. -/
def SelfMem (A : CMapArr) : Prop := ∀ p, p < A.length → p ∈ (cmGet A p).2

/-- All positions listed in a class's index set hold that same class:
the value-level statement of the tuple-aliasing invariant. -/
def Coherent (A : CMapArr) : Prop :=
  ∀ p q, q ∈ (cmGet A p).2 → cmGet A q = cmGet A p

/-- Class index sets only mention in-range positions. -/
def Bounded (A : CMapArr) : Prop :=
  ∀ p q, q ∈ (cmGet A p).2 → q < A.length

/-- From position `m` on, the array is one color-free class: the virgin
suffix left by placements that all happened below `m`. -/
def VirginAt (m : ℕ) (A : CMapArr) : Prop :=
  ∃ R : Finset ℕ, Finset.Ico m A.length ⊆ R ∧ ∀ p ∈ R, cmGet A p = (∅, R)

/-- What a partition walk guarantees about each returned part. -/
def PartsValid (A : CMapArr)
    (parts : List (Finset ℕ × Finset ℕ × Finset ℕ)) : Prop :=
  ∀ cis ∈ parts, (∀ q ∈ cis.2.1, cmGet A q = (cis.1, cis.2.1)) ∧
    cis.2.2 ⊆ cis.2.1 ∧ cis.2.2.Nonempty

theorem cmGet_oob (A : CMapArr) (p : ℕ) (h : A.length ≤ p) :
    cmGet A p = (∅, ∅) := by
  rw [cmGet, List.getD_eq_getElem?_getD, List.getElem?_eq_none h]
  rfl

theorem gcmp_ge (A : CMapArr) (b e : ℕ) (h : ¬ b < e) :
    get_color_map_partition A b e = some [] := by
  rw [get_color_map_partition.eq_def, dif_neg h]

theorem gcmp_none (A : CMapArr) (b e : ℕ) (hbe : b < e)
    (hs : ((cmGet A b).2.filter fun n => b ≤ n ∧ n < e) = ∅) :
    get_color_map_partition A b e = none := by
  rw [get_color_map_partition.eq_def, dif_pos hbe, dif_pos hs]

theorem gcmp_step (A : CMapArr) (b e : ℕ) (hbe : b < e)
    (hs : ((cmGet A b).2.filter fun n => b ≤ n ∧ n < e) ≠ ∅) :
    get_color_map_partition A b e =
      (get_color_map_partition A
          (1 + ((cmGet A b).2.filter fun n => b ≤ n ∧ n < e).sup id) e).map
        fun rest => ((cmGet A b).1, (cmGet A b).2,
          (cmGet A b).2.filter fun n => b ≤ n ∧ n < e) :: rest := by
  rw [get_color_map_partition.eq_def, dif_pos hbe, dif_neg hs]

theorem gcmp_spec (A : CMapArr) (hCoh : Coherent A) :
    ∀ (k b e : ℕ), e - b ≤ k → ∀ parts,
      get_color_map_partition A b e = some parts →
      PartsValid A parts ∧
      parts.Pairwise (fun x y => Disjoint x.2.1 y.2.1) ∧
      (∀ cis ∈ parts, cis.2.2 ⊆ Finset.Ico b e) := by
  intro k
  induction k with
  | zero =>
      intro b e hk parts hp
      rw [gcmp_ge A b e (by omega)] at hp
      injection hp with hp
      subst hp
      exact ⟨fun cis h => absurd h (List.not_mem_nil _), .nil,
        fun cis h => absurd h (List.not_mem_nil _)⟩
  | succ k ih =>
      intro b e hk parts hp
      by_cases hbe : b < e
      · by_cases hs : ((cmGet A b).2.filter fun n => b ≤ n ∧ n < e) = ∅
        · rw [gcmp_none A b e hbe hs] at hp
          exact absurd hp (by simp)
        · rw [gcmp_step A b e hbe hs] at hp
          obtain ⟨rest, hrest, hparts⟩ := Option.map_eq_some'.mp hp
          obtain ⟨a, ha⟩ := Finset.nonempty_iff_ne_empty.mpr hs
          have hab : b ≤ a := (Finset.mem_filter.mp ha).2.1
          have hasup : id a ≤
              ((cmGet A b).2.filter fun n => b ≤ n ∧ n < e).sup id :=
            Finset.le_sup ha
          simp only [id_eq] at hasup
          obtain ⟨ihv, ihpw, ihwin⟩ :=
            ih (1 + ((cmGet A b).2.filter fun n => b ≤ n ∧ n < e).sup id) e
              (by omega) rest hrest
          have hclass : ∀ q ∈ (cmGet A b).2,
              cmGet A q = ((cmGet A b).1, (cmGet A b).2) := by
            intro q hq
            rw [hCoh b q hq]
          have hwinhead : ((cmGet A b).2.filter fun n => b ≤ n ∧ n < e) ⊆
              Finset.Ico b e := by
            intro n hn
            have := (Finset.mem_filter.mp hn).2
            exact Finset.mem_Ico.mpr this
          subst hparts
          refine ⟨?_, ?_, ?_⟩
          · intro cis hcis
            rcases List.mem_cons.mp hcis with rfl | htl
            · exact ⟨hclass, Finset.filter_subset _ _,
                Finset.nonempty_iff_ne_empty.mpr hs⟩
            · exact ihv cis htl
          · refine List.Pairwise.cons ?_ ihpw
            intro y hy
            by_contra hnd
            obtain ⟨q, hq1, hq2⟩ := Finset.not_disjoint_iff.mp hnd
            have e1 := hclass q hq1
            have e2 := (ihv y hy).1 q hq2
            have hIeq : (cmGet A b).2 = y.2.1 :=
              congrArg Prod.snd (e1.symm.trans e2)
            obtain ⟨t, ht⟩ := (ihv y hy).2.2
            have htI : t ∈ y.2.1 := (ihv y hy).2.1 ht
            have htwin := Finset.mem_Ico.mp (ihwin y hy ht)
            have hts : t ∈ (cmGet A b).2.filter fun n => b ≤ n ∧ n < e :=
              Finset.mem_filter.mpr ⟨hIeq ▸ htI, by omega, htwin.2⟩
            have hle2 : id t ≤
                ((cmGet A b).2.filter fun n => b ≤ n ∧ n < e).sup id :=
              Finset.le_sup hts
            simp only [id_eq] at hle2
            omega
          · intro cis hcis
            rcases List.mem_cons.mp hcis with rfl | htl
            · exact hwinhead
            · exact fun x hx => Finset.mem_Ico.mpr
                (by have := Finset.mem_Ico.mp (ihwin cis htl hx); omega)
      · rw [gcmp_ge A b e hbe] at hp
        injection hp with hp
        subst hp
        exact ⟨fun cis h => absurd h (List.not_mem_nil _), .nil,
          fun cis h => absurd h (List.not_mem_nil _)⟩

theorem gcmp_total (A : CMapArr) (hSelf : SelfMem A) :
    ∀ (k b e : ℕ), e - b ≤ k → e ≤ A.length →
      (get_color_map_partition A b e).isSome := by
  intro k
  induction k with
  | zero =>
      intro b e hk hle
      rw [gcmp_ge A b e (by omega)]
      rfl
  | succ k ih =>
      intro b e hk hle
      by_cases hbe : b < e
      · have hblen : b < A.length := lt_of_lt_of_le hbe hle
        have hbs : b ∈ (cmGet A b).2.filter fun n => b ≤ n ∧ n < e :=
          Finset.mem_filter.mpr ⟨hSelf b hblen, le_refl b, hbe⟩
        have hs := Finset.ne_empty_of_mem hbs
        have hbsup : id b ≤
            ((cmGet A b).2.filter fun n => b ≤ n ∧ n < e).sup id :=
          Finset.le_sup hbs
        simp only [id_eq] at hbsup
        have := ih (1 + ((cmGet A b).2.filter fun n => b ≤ n ∧ n < e).sup id)
          e (by omega) hle
        obtain ⟨rest, hrest⟩ := Option.isSome_iff_exists.mp this
        rw [gcmp_step A b e hbe hs, hrest]
        rfl
      · rw [gcmp_ge A b e hbe]
        rfl

theorem walk_virgin (A : CMapArr) (R : Finset ℕ) (b e : ℕ)
    (hwin : Finset.Ico b e ⊆ R) (hvirgin : ∀ p ∈ R, cmGet A p = (∅, R))
    (hbe : b < e) :
    get_color_map_partition A b e =
      some [((∅ : Finset ℕ), R, Finset.Ico b e)] := by
  have hb : cmGet A b = (∅, R) :=
    hvirgin b (hwin (Finset.mem_Ico.mpr ⟨le_refl b, hbe⟩))
  have hsval : ((cmGet A b).2.filter fun n => b ≤ n ∧ n < e) =
      Finset.Ico b e := by
    rw [hb]
    ext n
    simp only [Finset.mem_filter, Finset.mem_Ico]
    constructor
    · exact fun h => h.2
    · intro h
      exact ⟨hwin (Finset.mem_Ico.mpr h), h⟩
  have hs : ((cmGet A b).2.filter fun n => b ≤ n ∧ n < e) ≠ ∅ := by
    rw [hsval]
    exact Finset.ne_empty_of_mem (Finset.mem_Ico.mpr ⟨le_refl b, hbe⟩)
  have hsup : ((cmGet A b).2.filter fun n => b ≤ n ∧ n < e).sup id = e - 1 := by
    rw [hsval]
    refine le_antisymm (Finset.sup_le ?_) ?_
    · intro x hx
      have := Finset.mem_Ico.mp hx
      simp only [id_eq]
      omega
    · have hmem : e - 1 ∈ Finset.Ico b e := Finset.mem_Ico.mpr (by omega)
      have hle3 : id (e - 1) ≤ (Finset.Ico b e).sup id := Finset.le_sup hmem
      simpa using hle3
  rw [gcmp_step A b e hbe hs, hsup]
  have he1 : 1 + (e - 1) = e := by omega
  rw [he1, gcmp_ge A e e (lt_irrefl e)]
  rw [Option.map_some']
  rw [hsval, hb]

theorem writeClass_length (v : Finset ℕ × Finset ℕ) :
    ∀ (S : List ℕ) (A : CMapArr), (writeClass A S v).length = A.length := by
  intro S
  induction S with
  | nil => intro A; rfl
  | cons q S2 ih =>
      intro A
      rw [writeClass, List.foldl_cons, ← writeClass]
      rw [ih (A.set q v), List.length_set]

theorem cmGet_writeClass_not_mem (v : Finset ℕ × Finset ℕ) :
    ∀ (S : List ℕ) (A : CMapArr) (p : ℕ), p ∉ S →
      cmGet (writeClass A S v) p = cmGet A p := by
  intro S
  induction S with
  | nil => intro A p _; rfl
  | cons q S2 ih =>
      intro A p hp
      rw [writeClass, List.foldl_cons, ← writeClass]
      rw [ih (A.set q v) p (fun h => hp (List.mem_cons_of_mem _ h))]
      refine Assembler.getD_set_ne (fun h => hp ?_) _ _
      rw [h]
      exact List.mem_cons_self _ _

theorem cmGet_writeClass_mem (v : Finset ℕ × Finset ℕ) :
    ∀ (S : List ℕ) (A : CMapArr) (p : ℕ), p ∈ S → p < A.length →
      cmGet (writeClass A S v) p = v := by
  intro S
  induction S with
  | nil => intro A p hp _; exact absurd hp (List.not_mem_nil _)
  | cons q S2 ih =>
      intro A p hp hlen
      rw [writeClass, List.foldl_cons, ← writeClass]
      by_cases hp2 : p ∈ S2
      · exact ih (A.set q v) p hp2 (by rw [List.length_set]; exact hlen)
      · obtain rfl : p = q := by
          rcases List.mem_cons.mp hp with h | h
          · exact h
          · exact absurd h hp2
        rw [cmGet_writeClass_not_mem v S2 _ p hp2]
        exact Assembler.getD_set_self hlen _ _

theorem remPair_snd (cis : Finset ℕ × Finset ℕ × Finset ℕ) (n : Finset ℕ) :
    (remPair cis n).2 = cis.2.1 \ cis.2.2 := rfl

theorem newPair_snd (cis : Finset ℕ × Finset ℕ × Finset ℕ) (n : Finset ℕ) :
    (newPair cis n).2 = cis.2.2 := rfl

theorem remPair_fst_subset (cis : Finset ℕ × Finset ℕ × Finset ℕ)
    (n : Finset ℕ) : (remPair cis n).1 ⊆ cis.1 :=
  le_trans (Finset.sdiff_subset) (Finset.sdiff_subset)

theorem remPair_eta (cis : Finset ℕ × Finset ℕ × Finset ℕ) (n : Finset ℕ) :
    remPair cis n = ((remPair cis n).1, cis.2.1 \ cis.2.2) := rfl

theorem applyOne_length (A : CMapArr) (cis : Finset ℕ × Finset ℕ × Finset ℕ)
    (n : Finset ℕ) : (applyOne A cis n).length = A.length := by
  rw [applyOne, writeClass_length, writeClass_length]

theorem cmGet_applyOne_out (A : CMapArr)
    (cis : Finset ℕ × Finset ℕ × Finset ℕ) (n : Finset ℕ) (p : ℕ)
    (hp : p ∉ cis.2.1) (hs : cis.2.2 ⊆ cis.2.1) :
    cmGet (applyOne A cis n) p = cmGet A p := by
  rw [applyOne, cmGet_writeClass_not_mem, cmGet_writeClass_not_mem]
  · intro h
    exact hp (Finset.mem_sdiff.mp ((Finset.mem_sort _).mp h)).1
  · intro h
    exact hp (hs ((Finset.mem_sort _).mp h))

theorem cmGet_applyOne_s (A : CMapArr)
    (cis : Finset ℕ × Finset ℕ × Finset ℕ) (n : Finset ℕ) (p : ℕ)
    (hp : p ∈ cis.2.2) (hlen : p < A.length) :
    cmGet (applyOne A cis n) p = newPair cis n := by
  rw [applyOne, cmGet_writeClass_mem]
  · exact (Finset.mem_sort _).mpr hp
  · rw [writeClass_length]
    exact hlen

theorem cmGet_applyOne_rem (A : CMapArr)
    (cis : Finset ℕ × Finset ℕ × Finset ℕ) (n : Finset ℕ) (p : ℕ)
    (hpI : p ∈ cis.2.1) (hps : p ∉ cis.2.2) (hlen : p < A.length) :
    cmGet (applyOne A cis n) p = remPair cis n := by
  rw [applyOne, cmGet_writeClass_not_mem, cmGet_writeClass_mem]
  · exact (Finset.mem_sort _).mpr (Finset.mem_sdiff.mpr ⟨hpI, hps⟩)
  · exact hlen
  · intro h
    exact hps ((Finset.mem_sort _).mp h)

theorem class_bound (A : CMapArr) (cis : Finset ℕ × Finset ℕ × Finset ℕ)
    (hcls : ∀ q ∈ cis.2.1, cmGet A q = (cis.1, cis.2.1))
    (hs : cis.2.2 ⊆ cis.2.1) (hne : cis.2.2.Nonempty) (hBdd : Bounded A) :
    ∀ q ∈ cis.2.1, q < A.length := by
  obtain ⟨t, ht⟩ := hne
  have htI := hs ht
  intro q hq
  refine hBdd t q ?_
  rw [hcls t htI]
  exact hq

theorem applyOne_invs (A : CMapArr) (cis : Finset ℕ × Finset ℕ × Finset ℕ)
    (n : Finset ℕ)
    (hcls : ∀ q ∈ cis.2.1, cmGet A q = (cis.1, cis.2.1))
    (hs : cis.2.2 ⊆ cis.2.1) (hne : cis.2.2.Nonempty)
    (hSelf : SelfMem A) (hCoh : Coherent A) (hBdd : Bounded A) :
    SelfMem (applyOne A cis n) ∧ Coherent (applyOne A cis n) ∧
      Bounded (applyOne A cis n) := by
  have hbd := class_bound A cis hcls hs hne hBdd
  refine ⟨?_, ?_, ?_⟩
  · intro p hp
    rw [applyOne_length] at hp
    by_cases hpss : p ∈ cis.2.2
    · rw [cmGet_applyOne_s A cis n p hpss hp, newPair_snd]
      exact hpss
    · by_cases hpI : p ∈ cis.2.1
      · rw [cmGet_applyOne_rem A cis n p hpI hpss hp, remPair_snd]
        exact Finset.mem_sdiff.mpr ⟨hpI, hpss⟩
      · rw [cmGet_applyOne_out A cis n p hpI hs]
        exact hSelf p hp
  · intro p q hq
    by_cases hpss : p ∈ cis.2.2
    · rw [cmGet_applyOne_s A cis n p hpss (hbd p (hs hpss)), newPair_snd] at hq
      rw [cmGet_applyOne_s A cis n p hpss (hbd p (hs hpss)),
        cmGet_applyOne_s A cis n q hq (hbd q (hs hq))]
    · by_cases hpI : p ∈ cis.2.1
      · rw [cmGet_applyOne_rem A cis n p hpI hpss (hbd p hpI),
          remPair_snd] at hq
        obtain ⟨hq1, hq2⟩ := Finset.mem_sdiff.mp hq
        rw [cmGet_applyOne_rem A cis n p hpI hpss (hbd p hpI),
          cmGet_applyOne_rem A cis n q hq1 hq2 (hbd q hq1)]
      · rw [cmGet_applyOne_out A cis n p hpI hs] at hq
        have hq2 := hCoh p q hq
        have hqI : q ∉ cis.2.1 := by
          intro hqI
          have hpl : p < A.length := by
            by_contra hge
            rw [cmGet_oob A p (le_of_not_lt hge)] at hq
            exact absurd hq (Finset.not_mem_empty q)
          have hpmem := hSelf p hpl
          have : cmGet A p = (cis.1, cis.2.1) :=
            hq2.symm.trans (hcls q hqI)
          rw [this] at hpmem
          exact hpI hpmem
        rw [cmGet_applyOne_out A cis n p hpI hs,
          cmGet_applyOne_out A cis n q hqI hs]
        exact hq2
  · intro p q hq
    rw [applyOne_length]
    by_cases hpss : p ∈ cis.2.2
    · rw [cmGet_applyOne_s A cis n p hpss (hbd p (hs hpss)),
        newPair_snd] at hq
      exact hbd q (hs hq)
    · by_cases hpI : p ∈ cis.2.1
      · rw [cmGet_applyOne_rem A cis n p hpI hpss (hbd p hpI),
          remPair_snd] at hq
        exact hbd q (Finset.mem_sdiff.mp hq).1
      · rw [cmGet_applyOne_out A cis n p hpI hs] at hq
        exact hBdd p q hq

theorem apply_color_maps_nil (A : CMapArr) (news : List (Finset ℕ)) :
    apply_color_maps A [] news = A := by
  cases news <;> rfl

theorem apply_color_maps_cons (A : CMapArr)
    (cis : Finset ℕ × Finset ℕ × Finset ℕ)
    (ps : List (Finset ℕ × Finset ℕ × Finset ℕ)) (n : Finset ℕ)
    (ns : List (Finset ℕ)) :
    apply_color_maps A (cis :: ps) (n :: ns) =
      apply_color_maps (applyOne A cis n) ps ns := rfl

theorem apply_color_maps_spec :
    ∀ (parts : List (Finset ℕ × Finset ℕ × Finset ℕ))
      (news : List (Finset ℕ)) (A : CMapArr),
      parts.length ≤ news.length →
      SelfMem A → Coherent A → Bounded A → PartsValid A parts →
      parts.Pairwise (fun x y => Disjoint x.2.1 y.2.1) →
      (apply_color_maps A parts news).length = A.length ∧
      SelfMem (apply_color_maps A parts news) ∧
      Coherent (apply_color_maps A parts news) ∧
      Bounded (apply_color_maps A parts news) ∧
      (∀ p, (∀ cis ∈ parts, p ∉ cis.2.1) →
        cmGet (apply_color_maps A parts news) p = cmGet A p) ∧
      (∀ cis ∈ parts, ∀ p, p ∈ cis.2.1 → p ∉ cis.2.2 →
        ∃ X, X ⊆ cis.1 ∧
          cmGet (apply_color_maps A parts news) p =
            (X, cis.2.1 \ cis.2.2)) := by
  intro parts
  induction parts with
  | nil =>
      intro news A _ hSelf hCoh hBdd _ _
      rw [apply_color_maps_nil]
      refine ⟨rfl, hSelf, hCoh, hBdd, fun p _ => rfl,
        fun cis h => absurd h (List.not_mem_nil _)⟩
  | cons cis ps ih =>
      intro news A hlen hSelf hCoh hBdd hpv hpw
      rcases news with _ | ⟨n, ns⟩
      · simp at hlen
      obtain ⟨hcls, hs, hne⟩ := hpv cis (List.mem_cons_self _ _)
      obtain ⟨hhead, htail⟩ := List.pairwise_cons.mp hpw
      have hbd := class_bound A cis hcls hs hne hBdd
      obtain ⟨hS1, hC1, hB1⟩ := applyOne_invs A cis n hcls hs hne hSelf hCoh hBdd
      have hpv1 : PartsValid (applyOne A cis n) ps := by
        intro cis2 h2
        obtain ⟨hcls2, hs2, hne2⟩ := hpv cis2 (List.mem_cons_of_mem _ h2)
        refine ⟨?_, hs2, hne2⟩
        intro q hq
        have hqout : q ∉ cis.2.1 :=
          Finset.disjoint_right.mp (hhead cis2 h2) hq
        rw [cmGet_applyOne_out A cis n q hqout hs]
        exact hcls2 q hq
      obtain ⟨ihlen, ihS, ihC, ihB, ihout, ihcls⟩ :=
        ih ns (applyOne A cis n) (by simpa using hlen) hS1 hC1 hB1 hpv1 htail
      rw [apply_color_maps_cons]
      refine ⟨ihlen.trans (applyOne_length A cis n), ihS, ihC, ihB, ?_, ?_⟩
      · intro p hp
        rw [ihout p (fun cis2 h2 => hp cis2 (List.mem_cons_of_mem _ h2))]
        exact cmGet_applyOne_out A cis n p (hp cis (List.mem_cons_self _ _)) hs
      · intro cis2 h2 p hpI hps
        rcases List.mem_cons.mp h2 with rfl | h2
        · refine ⟨(remPair cis2 n).1, remPair_fst_subset cis2 n, ?_⟩
          rw [ihout p (fun cis3 h3 =>
            Finset.disjoint_left.mp (hhead cis3 h3) hpI)]
          rw [cmGet_applyOne_rem A cis2 n p hpI hps (hbd p hpI)]
          exact remPair_eta cis2 n
        · exact ihcls cis2 h2 p hpI hps

theorem partPerm_length :
    ∀ (parts : List (Finset ℕ × Finset ℕ × Finset ℕ))
      (perm : List (Option ℕ)), (partPerm parts perm).length = parts.length := by
  intro parts
  induction parts with
  | nil => intro perm; rfl
  | cons cis ps ih =>
      intro perm
      rw [partPerm, List.length_cons, List.length_cons, ih]

theorem range_min_eq (r : ℕ) (h : (Finset.range r).Nonempty) :
    (Finset.range r).min' h = 0 := by
  have hr : 0 < r := by
    obtain ⟨a, ha⟩ := h
    have := Finset.mem_range.mp ha
    omega
  exact le_antisymm (Finset.min'_le _ 0 (Finset.mem_range.mpr hr)) (Nat.zero_le _)

theorem range_max_eq (r : ℕ) (h : (Finset.range r).Nonempty) :
    (Finset.range r).max' h = r - 1 := by
  have hr : 0 < r := by
    obtain ⟨a, ha⟩ := h
    have := Finset.mem_range.mp ha
    omega
  refine le_antisymm ?_ (Finset.le_max' _ _ (Finset.mem_range.mpr (by omega)))
  have := Finset.mem_range.mp (Finset.max'_mem (Finset.range r) h)
  omega

theorem min_max_of_range (s : Finset ℕ) (r : ℕ) (hs : s = Finset.range r)
    (h : s.Nonempty) : s.min' h = 0 ∧ s.max' h = r - 1 := by
  subst hs
  exact ⟨range_min_eq r h, range_max_eq r h⟩

theorem try_add_post (A : CMapArr) (nc : Finset ℕ × Finset ℕ) (i m r : ℕ)
    (A2 : CMapArr)
    (hSelf : SelfMem A) (hCoh : Coherent A) (hBdd : Bounded A)
    (hV : VirginAt m A)
    (hnc : nc.2 = Finset.range r) (hr1 : 1 ≤ r) (hr4 : r ≤ 4)
    (htry : try_add_color_map_at A nc i = .ok (some A2)) :
    A2.length = A.length ∧ SelfMem A2 ∧ Coherent A2 ∧ Bounded A2 ∧
      VirginAt (max m (i + 4)) A2 := by
  have hne : nc.2.Nonempty := by
    rw [hnc]
    exact Finset.nonempty_range_iff.mpr (by omega)
  obtain ⟨hmin, hmax⟩ := min_max_of_range nc.2 r hnc hne
  rw [try_add_color_map_at, dif_pos hne] at htry
  split at htry
  · exact absurd htry (by simp)
  · rename_i parts hw
    split at htry
    · simp only [Except.ok.injEq] at htry
      exact absurd htry (by simp)
    · rename_i perm hf
      simp only [Except.ok.injEq, Option.some.injEq] at htry
      subst htry
      obtain ⟨hpv, hpw, hwins⟩ :=
        gcmp_spec A hCoh ((i + nc.2.max' hne + 1) - (i + nc.2.min' hne))
          _ _ le_rfl parts hw
      have hlen : parts.length ≤ (partPerm parts perm).length := by
        rw [partPerm_length]
      obtain ⟨hL, hS, hC, hB, hout, hcls⟩ :=
        apply_color_maps_spec parts (partPerm parts perm) A hlen
          hSelf hCoh hBdd hpv hpw
      refine ⟨hL, hS, hC, hB, ?_⟩
      obtain ⟨R, hRsub, hRval⟩ := hV
      have hwin4 : ∀ cis ∈ parts, cis.2.2 ⊆ Finset.Ico i (i + 4) := by
        rw [hmin, hmax] at hwins
        intro cis hcis x hx
        have := Finset.mem_Ico.mp (hwins cis hcis hx)
        exact Finset.mem_Ico.mpr (by omega)
      by_cases hRp : ∃ cis ∈ parts, cis.2.1 = R
      · obtain ⟨cis, hcisp, hcisR⟩ := hRp
        obtain ⟨hcls2, hs2, hne2⟩ := hpv cis hcisp
        refine ⟨R \ cis.2.2, ?_, ?_⟩
        · intro p hp
          rw [hL] at hp
          have hp2 := Finset.mem_Ico.mp hp
          refine Finset.mem_sdiff.mpr ⟨hRsub (Finset.mem_Ico.mpr
            ⟨by omega, hp2.2⟩), ?_⟩
          intro hps
          have := Finset.mem_Ico.mp (hwin4 cis hcisp hps)
          omega
        · intro p hp
          obtain ⟨hpR, hps⟩ := Finset.mem_sdiff.mp hp
          have hpI : p ∈ cis.2.1 := by rw [hcisR]; exact hpR
          obtain ⟨X, hX, hXe⟩ := hcls cis hcisp p hpI hps
          have hX0 : X = ∅ := by
            have hcol0 : cis.1 = ∅ := by
              obtain ⟨t, ht⟩ := hne2
              have h1 := hcls2 t (hs2 ht)
              have h2 := hRval t (by rw [← hcisR]; exact hs2 ht)
              rw [h1] at h2
              exact ((Prod.mk.injEq _ _ _ _).mp h2).1
            rw [hcol0] at hX
            exact Finset.subset_empty.mp hX
          rw [hXe, hX0, hcisR]
      · push_neg at hRp
        have hdis : ∀ p ∈ R, ∀ cis ∈ parts, p ∉ cis.2.1 := by
          intro p hp cis hcis hpin
          refine hRp cis hcis ?_
          have h1 := (hpv cis hcis).1 p hpin
          have h2 := hRval p hp
          rw [h1] at h2
          exact ((Prod.mk.injEq _ _ _ _).mp h2).2
        refine ⟨R, ?_, ?_⟩
        · intro p hp
          rw [hL] at hp
          have hp2 := Finset.mem_Ico.mp hp
          exact hRsub (Finset.mem_Ico.mpr ⟨by omega, hp2.2⟩)
        · intro p hp
          rw [hout p (hdis p hp)]
          exact hRval p hp

theorem try_add_eq_of_walk (A : CMapArr) (nc : Finset ℕ × Finset ℕ)
    (i : ℕ) (hne : nc.2.Nonempty)
    (parts : List (Finset ℕ × Finset ℕ × Finset ℕ))
    (hw : get_color_map_partition A (i + nc.2.min' hne)
      (i + nc.2.max' hne + 1) = some parts) :
    try_add_color_map_at A nc i =
      match (((nc.1.sort (· ≤ ·)).map Option.some ++
          List.replicate (nc.2.card - nc.1.card) none).permutations).find?
          (fun perm => feasibleSplit parts (partPerm parts perm)) with
      | none => .ok none
      | some perm =>
          .ok (some (apply_color_maps A parts (partPerm parts perm))) := by
  rw [try_add_color_map_at, dif_pos hne, hw]

theorem try_add_succeeds_at_virgin (A : CMapArr) (nc : Finset ℕ × Finset ℕ)
    (i m r : ℕ)
    (hnc : nc.2 = Finset.range r) (hr1 : 1 ≤ r) (hr4 : r ≤ 4)
    (hc4 : nc.1.card ≤ 4)
    (hmi : m ≤ i) (hi4 : i + 4 ≤ A.length) (hV : VirginAt m A) :
    ∃ A2, try_add_color_map_at A nc i = .ok (some A2) := by
  obtain ⟨R, hRsub, hRval⟩ := hV
  have hne : nc.2.Nonempty := by
    rw [hnc]
    exact Finset.nonempty_range_iff.mpr (by omega)
  obtain ⟨hmin, hmax⟩ := min_max_of_range nc.2 r hnc hne
  have hwalk : get_color_map_partition A (i + nc.2.min' hne)
      (i + nc.2.max' hne + 1) =
      some [((∅ : Finset ℕ), R, Finset.Ico i (i + r))] := by
    rw [hmin, hmax, Nat.add_zero]
    have he : i + (r - 1) + 1 = i + r := by omega
    rw [he]
    refine walk_virgin A R i (i + r) ?_ hRval (by omega)
    intro p hp
    have := Finset.mem_Ico.mp hp
    exact hRsub (Finset.mem_Ico.mpr ⟨by omega, by omega⟩)
  rw [try_add_eq_of_walk A nc i hne _ hwalk]
  have hpass : ∀ perm ∈ ((nc.1.sort (· ≤ ·)).map Option.some ++
      List.replicate (nc.2.card - nc.1.card) none).permutations,
      feasibleSplit [((∅ : Finset ℕ), R, Finset.Ico i (i + r))]
        (partPerm [((∅ : Finset ℕ), R, Finset.Ico i (i + r))] perm) = true := by
    intro perm hperm
    have hpermL := List.mem_permutations.mp hperm
    have hsub : ((perm.take (Finset.Ico i (i + r)).card).filterMap
        id).toFinset ⊆ nc.1 := by
      intro x hx
      rw [List.mem_toFinset] at hx
      obtain ⟨a, ha, hax⟩ := List.mem_filterMap.mp hx
      have hamem : a ∈ perm := List.mem_of_mem_take ha
      have haL := hpermL.mem_iff.mp hamem
      rcases List.mem_append.mp haL with h1 | h2
      · obtain ⟨y, hy, hya⟩ := List.mem_map.mp h1
        have hyx : y = x := by
          rw [← hya] at hax
          simpa using hax
        rw [← hyx]
        exact (Finset.mem_sort _).mp hy
      · rw [List.eq_of_mem_replicate h2] at hax
        simp at hax
    have hpp : partPerm [((∅ : Finset ℕ), R, Finset.Ico i (i + r))] perm =
        [((perm.take (Finset.Ico i (i + r)).card).filterMap id).toFinset] := rfl
    rw [hpp]
    simp only [feasibleSplit, List.zip_cons_cons, List.zip_nil_right,
      List.all_cons, List.all_nil, Bool.and_true]
    rw [decide_eq_true_eq]
    have h1 := Finset.card_le_card hsub
    have h2 : 4 ≤ R.card := by
      have h3 := Finset.card_le_card hRsub
      rw [Nat.card_Ico] at h3
      omega
    rw [Finset.sdiff_empty]
    simp only [Finset.card_empty, Nat.cast_zero, sub_zero]
    omega
  rcases hfx : (((nc.1.sort (· ≤ ·)).map Option.some ++
      List.replicate (nc.2.card - nc.1.card) none).permutations).find?
      (fun perm => feasibleSplit
        [((∅ : Finset ℕ), R, Finset.Ico i (i + r))]
        (partPerm [((∅ : Finset ℕ), R, Finset.Ico i (i + r))] perm))
      with _ | perm
  · exfalso
    have hLmem : ((nc.1.sort (· ≤ ·)).map Option.some ++
        List.replicate (nc.2.card - nc.1.card) none) ∈
        ((nc.1.sort (· ≤ ·)).map Option.some ++
        List.replicate (nc.2.card - nc.1.card) none).permutations :=
      List.mem_permutations.mpr (List.Perm.refl _)
    exact (List.find?_eq_none.mp hfx _ hLmem) (hpass _ hLmem)
  · rw [hfx]
    exact ⟨_, rfl⟩

theorem try_add_isOk (A : CMapArr) (nc : Finset ℕ × Finset ℕ) (j r : ℕ)
    (hSelf : SelfMem A) (hnc : nc.2 = Finset.range r) (hr1 : 1 ≤ r)
    (hlen : j + r ≤ A.length) :
    ∃ o, try_add_color_map_at A nc j = .ok o := by
  have hne : nc.2.Nonempty := by
    rw [hnc]
    exact Finset.nonempty_range_iff.mpr (by omega)
  obtain ⟨hmin, hmax⟩ := min_max_of_range nc.2 r hnc hne
  have hw : (get_color_map_partition A (j + nc.2.min' hne)
      (j + nc.2.max' hne + 1)).isSome := by
    rw [hmin, hmax, Nat.add_zero]
    have he : j + (r - 1) + 1 = j + r := by omega
    rw [he]
    exact gcmp_total A hSelf (j + r - j) j (j + r) le_rfl hlen
  obtain ⟨parts, hparts⟩ := Option.isSome_iff_exists.mp hw
  rw [try_add_eq_of_walk A nc j hne parts hparts]
  rcases hfx : (((nc.1.sort (· ≤ ·)).map Option.some ++
      List.replicate (nc.2.card - nc.1.card) none).permutations).find?
      (fun perm => feasibleSplit parts (partPerm parts perm)) with _ | perm
  · rw [hfx]
    exact ⟨none, rfl⟩
  · rw [hfx]
    exact ⟨some _, rfl⟩

theorem add_color_map_go_cons (A : CMapArr) (nc : Finset ℕ × Finset ℕ)
    (j : ℕ) (tl : List ℕ) :
    add_color_map_go A nc (j :: tl) =
      match try_add_color_map_at A nc j with
      | .error e => .error e
      | .ok none => add_color_map_go A nc tl
      | .ok (some A2) => .ok (some (j, A2)) := rfl

theorem add_color_map_go_success :
    ∀ (l : List ℕ) (A : CMapArr) (nc : Finset ℕ × Finset ℕ) (m r : ℕ),
      SelfMem A → Coherent A → Bounded A → VirginAt m A →
      nc.2 = Finset.range r → 2 ≤ r → r ≤ 4 → nc.1.card ≤ 4 →
      m ∈ l → l.Pairwise (· ≤ ·) → (∀ j ∈ l, 2 ∣ j) → m + 4 ≤ A.length →
      ∃ i A2, add_color_map_go A nc l = .ok (some (i, A2)) ∧ 2 ∣ i ∧
        i ≤ m ∧ A2.length = A.length ∧ SelfMem A2 ∧ Coherent A2 ∧
        Bounded A2 ∧ VirginAt (max m (i + 4)) A2 := by
  intro l
  induction l with
  | nil =>
      intro A nc m r _ _ _ _ _ _ _ _ hm _ _ _
      exact absurd hm (List.not_mem_nil _)
  | cons j tl ih =>
      intro A nc m r hSelf hCoh hBdd hV hnc hr2 hr4 hc4 hm hpw hev hm4
      have hj : j ≤ m := by
        rcases List.mem_cons.mp hm with rfl | hmtl
        · exact le_rfl
        · exact (List.pairwise_cons.mp hpw).1 m hmtl
      obtain ⟨o, ho⟩ := try_add_isOk A nc j r hSelf hnc (by omega) (by omega)
      rw [add_color_map_go_cons, ho]
      cases o with
      | none =>
          have hjm : j ≠ m := by
            intro h
            subst h
            obtain ⟨A2, hA2⟩ := try_add_succeeds_at_virgin A nc j j r hnc
              (by omega) hr4 hc4 le_rfl hm4 hV
            exact absurd (hA2.symm.trans ho) (by simp)
          have hmtl : m ∈ tl := by
            rcases List.mem_cons.mp hm with h | h
            · exact absurd h.symm hjm
            · exact h
          exact ih A nc m r hSelf hCoh hBdd hV hnc hr2 hr4 hc4 hmtl
            (List.pairwise_cons.mp hpw).2
            (fun x hx => hev x (List.mem_cons_of_mem _ hx)) hm4
      | some A2 =>
          obtain ⟨hL, hS, hC, hB, hVp⟩ :=
            try_add_post A nc j m r A2 hSelf hCoh hBdd hV hnc (by omega)
              hr4 ho
          exact ⟨j, A2, rfl, hev j (List.mem_cons_self _ _), hj, hL, hS,
            hC, hB, hVp⟩

theorem add_color_map_success (A : CMapArr) (nc : Finset ℕ × Finset ℕ)
    (m r : ℕ)
    (hSelf : SelfMem A) (hCoh : Coherent A) (hBdd : Bounded A)
    (hV : VirginAt m A)
    (hnc : nc.2 = Finset.range r) (hr2 : 2 ≤ r) (hr4 : r ≤ 4)
    (hc4 : nc.1.card ≤ 4) (hm2 : 2 ∣ m) (hm4 : m + 4 ≤ A.length) :
    ∃ i A2, add_color_map A nc = .ok (some (i, A2)) ∧ 2 ∣ i ∧ i ≤ m ∧
      A2.length = A.length ∧ SelfMem A2 ∧ Coherent A2 ∧ Bounded A2 ∧
      VirginAt (max m (i + 4)) A2 := by
  obtain ⟨t, rfl⟩ := hm2
  refine add_color_map_go_success _ A nc (2 * t) r hSelf hCoh hBdd hV hnc
    hr2 hr4 hc4 ?_ ?_ ?_ hm4
  · refine List.mem_map.mpr ⟨t, List.mem_range.mpr ?_, rfl⟩
    omega
  · refine List.Pairwise.map _ ?_ (List.pairwise_lt_range _)
    intro a b hab
    omega
  · intro x hx
    obtain ⟨t2, _, rfl⟩ := List.mem_map.mp hx
    exact ⟨t2, rfl⟩

theorem place_blocks_cons (A : CMapArr) (nc : Finset ℕ × Finset ℕ)
    (rest : List (Finset ℕ × Finset ℕ)) :
    place_blocks A (nc :: rest) =
      match add_color_map A nc with
      | .error e => .error e
      | .ok none => .ok none
      | .ok (some iA) =>
          match place_blocks iA.2 rest with
          | .error e => .error e
          | .ok none => .ok none
          | .ok (some isA) => .ok (some (iA.1 :: isA.1, isA.2)) := rfl

theorem place_blocks_spec :
    ∀ (blocks : List (Finset ℕ × Finset ℕ)) (A : CMapArr) (m : ℕ),
      SelfMem A → Coherent A → Bounded A → VirginAt m A → 2 ∣ m →
      m + 4 * blocks.length ≤ A.length →
      (∀ nc ∈ blocks, nc.2 = Finset.range nc.2.card ∧ 2 ≤ nc.2.card ∧
        nc.2.card ≤ 4 ∧ nc.1.card ≤ 4) →
      ∃ ixs A2, place_blocks A blocks = .ok (some (ixs, A2)) ∧
        ixs.length = blocks.length ∧ (∀ i ∈ ixs, 2 ∣ i) := by
  intro blocks
  induction blocks with
  | nil =>
      intro A m _ _ _ _ _ _ _
      exact ⟨[], A, rfl, rfl, fun i h => absurd h (List.not_mem_nil _)⟩
  | cons nc rest ih =>
      intro A m hSelf hCoh hBdd hV hm2 hmlen hsh
      obtain ⟨hncr, hr2, hr4, hc4⟩ := hsh nc (List.mem_cons_self _ _)
      rw [List.length_cons] at hmlen
      have hm4 : m + 4 ≤ A.length := by omega
      obtain ⟨i, A1, hadd, hi2, him, hlen1, hS1, hC1, hB1, hV1⟩ :=
        add_color_map_success A nc m nc.2.card hSelf hCoh hBdd hV hncr hr2
          hr4 hc4 hm2 hm4
      have hm2b : 2 ∣ max m (i + 4) := by
        rcases max_choice m (i + 4) with h | h
        · rw [h]
          exact hm2
        · rw [h]
          omega
      have hmlen2 : max m (i + 4) + 4 * rest.length ≤ A1.length := by
        rw [hlen1]
        omega
      obtain ⟨ixs, A2, hplace, hlen2, hev2⟩ :=
        ih A1 (max m (i + 4)) hS1 hC1 hB1 hV1 hm2b hmlen2
          (fun nc2 h2 => hsh nc2 (List.mem_cons_of_mem _ h2))
      refine ⟨i :: ixs, A2, ?_, by simp [hlen2], ?_⟩
      · rw [place_blocks_cons, hadd]
        show (match place_blocks A1 rest with
          | .error e => .error e
          | .ok none => .ok none
          | .ok (some isA) => Except.ok (some (i :: isA.1, isA.2))) =
          Except.ok (some (i :: ixs, A2))
        rw [hplace]
      · intro x hx
        rcases List.mem_cons.mp hx with rfl | hx2
        · exact hi2
        · exact hev2 x hx2

theorem init_length (N : ℕ) : (init_cmap_arr N).length = 4 * N :=
  List.length_replicate _ _

theorem cmGet_init (N p : ℕ) (hp : p < 4 * N) :
    cmGet (init_cmap_arr N) p = (∅, Finset.range (4 * N)) := by
  rw [init_cmap_arr, cmGet, List.getD_eq_getElem?_getD,
    List.getElem?_replicate, if_pos hp]
  rfl

theorem init_invs (N : ℕ) :
    SelfMem (init_cmap_arr N) ∧ Coherent (init_cmap_arr N) ∧
      Bounded (init_cmap_arr N) ∧ VirginAt 0 (init_cmap_arr N) := by
  refine ⟨?_, ?_, ?_, ?_⟩
  · intro p hp
    rw [init_length] at hp
    rw [cmGet_init N p hp]
    exact Finset.mem_range.mpr hp
  · intro p q hq
    by_cases hp : p < 4 * N
    · rw [cmGet_init N p hp] at hq
      rw [cmGet_init N p hp, cmGet_init N q (Finset.mem_range.mp hq)]
    · rw [cmGet_oob _ p (by rw [init_length]; omega)] at hq
      exact absurd hq (Finset.not_mem_empty q)
  · intro p q hq
    rw [init_length]
    by_cases hp : p < 4 * N
    · rw [cmGet_init N p hp] at hq
      exact Finset.mem_range.mp hq
    · rw [cmGet_oob _ p (by rw [init_length]; omega)] at hq
      exact absurd hq (Finset.not_mem_empty q)
  · refine ⟨Finset.range (4 * N), ?_, ?_⟩
    · rw [init_length]
      intro x hx
      exact Finset.mem_range.mpr (Finset.mem_Ico.mp hx).2
    · intro p hp
      exact cmGet_init N p (Finset.mem_range.mp hp)

end Alloc

/-- **C3.** The block-compression palette allocator never fails: for every
sequence of block color maps whose index sets are `range r` with
`r ∈ {2, 3, 4}` and at most 4 colors (exactly what `Texel4x4.__init__`
produces), threading `calc_bytestr_compressed`'s initial `cmap_arr` of
length `4 * N` through `Texel4x4.add_color_map` block by block crashes
nowhere, the first-fit scan over even positions finds a feasible placement
for every single block (`add_color_map` never returns Python's implicit
`None`), and each block's assigned index is an even, paired-slot position.
The claim's most-constrained-first ordering hypothesis is not even needed:
the virgin-suffix invariant makes every scan succeed regardless of block
order. -/
theorem allocator_places_every_block
    (blocks : List (Finset ℕ × Finset ℕ))
    (hsh : ∀ nc ∈ blocks, nc.2 = Finset.range nc.2.card ∧ 2 ≤ nc.2.card ∧
      nc.2.card ≤ 4 ∧ nc.1.card ≤ 4) :
    ∃ ixs A2, Alloc.place_blocks (Alloc.init_cmap_arr blocks.length)
        blocks = .ok (some (ixs, A2)) ∧
      ixs.length = blocks.length ∧ ∀ i ∈ ixs, 2 ∣ i := by
  obtain ⟨hSelf, hCoh, hBdd, hV⟩ := Alloc.init_invs blocks.length
  exact Alloc.place_blocks_spec blocks _ 0 hSelf hCoh hBdd hV ⟨0, rfl⟩
    (by rw [Alloc.init_length]; omega) hsh

/-- Witness for C3: two concrete blocks — a full 4-color quad map and a
1-color pair map — are both placed. -/
theorem allocator_places_every_block_witness :
    (∀ nc ∈ ([(({0, 1, 2, 3} : Finset ℕ), Finset.range 4),
        (({7} : Finset ℕ), Finset.range 2)] :
        List (Finset ℕ × Finset ℕ)),
      nc.2 = Finset.range nc.2.card ∧ 2 ≤ nc.2.card ∧ nc.2.card ≤ 4 ∧
        nc.1.card ≤ 4) ∧
    ∃ ixs A2, Alloc.place_blocks
        (Alloc.init_cmap_arr
          ([(({0, 1, 2, 3} : Finset ℕ), Finset.range 4),
            (({7} : Finset ℕ), Finset.range 2)] :
            List (Finset ℕ × Finset ℕ)).length)
        [(({0, 1, 2, 3} : Finset ℕ), Finset.range 4),
         (({7} : Finset ℕ), Finset.range 2)] = .ok (some (ixs, A2)) ∧
      ixs.length = ([(({0, 1, 2, 3} : Finset ℕ), Finset.range 4),
        (({7} : Finset ℕ), Finset.range 2)] :
        List (Finset ℕ × Finset ℕ)).length ∧ ∀ i ∈ ixs, 2 ∣ i :=
  ⟨by decide, allocator_places_every_block _ (by decide)⟩

end SM256
